import Mathlib

/-!
Verification development for the fs-simple library (src/FileSystem.js).

The library is a path-manipulation abstraction (`Path`) plus an asynchronous
directory-tree walker (`FS.tree`) with pure tree queries
(`FS.tree.flatten`, `FS.tree.files`, `FS.tree.directories`).

Modelling choices, documented once here:

* JS strings are modelled as `List Char` (`JStr`).
* The platform path primitives used by the source (`require('path')` on a
  POSIX host, where the separator is `'/'`) are embedded faithfully:
  `jsNormalize` models `path.posix.normalize`, `jsJoin` models the binary
  `path.posix.join`, `jsResolve` models the unary `path.posix.resolve`
  (the current working directory `process.cwd()` is an explicit `cwd`
  parameter), `jsBasename` models `path.posix.basename`.
* The filesystem (`fs/promises`) is an abstract `Storage` oracle; every
  call can fail, failure is modelled with `Except`, where the error value
  is the JS error message string.  The `async`/`await` concurrency of the
  source is single-threaded cooperative suspension; `Promise.all` over a
  batch of already-launched operations is serialised in array order, which
  is observationally equal whenever at most one operation of the batch
  fails.
* The unbounded JS recursion of `FS.tree._resolveChildren` is given a
  `fuel` parameter; running out of fuel is a distinguished error that a
  real (terminating) run never produces.
* `new RegExp(s)` construction, which can throw `SyntaxError`, is modelled
  by the well-formedness scanner `regexValid` (escape completion, character
  class termination, parenthesis balance), which agrees with JS on every
  pattern actually examined by the theorems below: patterns whose
  interpolated part contains no regex metacharacter, and patterns with an
  unbalanced group.  Regex characters in match position are modelled
  literally, which agrees with JS on the shapes used by `pop` and
  `relativeTo`.
-/

/-- JS strings, modelled as lists of characters. -/
abbrev JStr := List Char

/-- Embed a concrete Lean string literal as a `JStr`. -/
def str (s : String) : JStr := s.data

/-- `true` iff the path string starts with the POSIX separator
(`isAbsolute` in Node's posix path implementation). -/
def isAbs : JStr → Bool
  | [] => false
  | c :: _ => c == '/' 

/-- `true` iff the path string ends with the POSIX separator
(`trailingSeparator` in Node's `normalize`). -/
def hasTrail (s : JStr) : Bool :=
  match s.getLast? with
  | some c => c == '/'
  | none => false

/-- Split a string on `'/'` (JS `s.split('/')`); the result is never empty
and its elements contain no `'/'`. -/
def segs : JStr → List JStr
  | [] => [[]]
  | c :: rest =>
    if c = '/' then [] :: segs rest
    else
      match segs rest with
      | [] => [[c]]
      | s :: ss => (c :: s) :: ss

/-- One step of Node's `normalizeString` segment loop: skip empty and `"."`
segments, let `".."` pop the last real segment (or accumulate when
`allow`ed above root), push everything else. -/
def step (allow : Bool) (st : List JStr) (seg : JStr) : List JStr :=
  if seg = [] ∨ seg = ['.'] then st
  else if seg = ['.', '.'] then
    if st ≠ [] ∧ st.getLast? ≠ some ['.', '.'] then st.dropLast
    else if allow then st ++ [['.', '.']] else st
  else st ++ [seg]

/-- The segment stack computed by Node's `normalizeString(s, allow)`. -/
def normStack (allow : Bool) (l : List JStr) : List JStr :=
  l.foldl (step allow) []

/-- Re-join a segment stack with `'/'` (the string Node's
`normalizeString` returns). -/
def renderStack : List JStr → JStr
  | [] => []
  | [s] => s
  | s :: rest => s ++ '/' :: renderStack rest

/-- Node `path.posix.normalize`. -/
def jsNormalize (p : JStr) : JStr :=
  if p = [] then ['.']
  else
    let a := isAbs p
    let t := hasTrail p
    let body := renderStack (normStack (!a) (segs p))
    if body = [] then
      if a then ['/'] else if t then ['.', '/'] else ['.']
    else
      (if a then ['/'] else []) ++ body ++ (if t then ['/'] else [])

/-- Node `path.posix.join` restricted to two arguments (the shape used by
`Path.append`/`Path.prefix`/`Path.postfix`/`Path.prepend` with a single
operand): empty arguments are skipped, the remaining ones are glued with
`'/'` and normalised; with no non-empty argument the result is `"."`. -/
def jsJoin (a b : JStr) : JStr :=
  if a = [] ∧ b = [] then ['.']
  else if a = [] then jsNormalize b
  else if b = [] then jsNormalize a
  else jsNormalize (a ++ '/' :: b)

/-- Node `path.posix.resolve` with a single argument, against the current
working directory `cwd` (`process.cwd()`). -/
def jsResolve (cwd p : JStr) : JStr :=
  let rp := if p = [] then cwd ++ ['/']
            else if isAbs p then p ++ ['/']
            else cwd ++ '/' :: (p ++ ['/'])
  let a := if p ≠ [] ∧ isAbs p then true else isAbs cwd
  let st := normStack (!a) (segs rp)
  if a then '/' :: renderStack st
  else if renderStack st ≠ [] then renderStack st else ['.']

/-- Node `path.posix.basename` (no extension argument): drop trailing
separators, then keep the part after the last remaining separator. -/
def jsBasename (s : JStr) : JStr :=
  let r := s.reverse.dropWhile (fun c => c = '/')
  (r.takeWhile (fun c => c ≠ '/')).reverse

/-- A plain path segment: non-empty, slash-free, backslash-free and not a
dot navigation segment.  Real `readdir` entries always have this shape. -/
def validName (n : JStr) : Prop :=
  n ≠ [] ∧ n ≠ ['.'] ∧ n ≠ ['.', '.'] ∧ ∀ c ∈ n, c ≠ '/'

instance (n : JStr) : Decidable (validName n) := by
  unfold validName; infer_instance

/-- `Path.prototype.inside`: literally
`tAbs.startsWith(iAbs + '/') || tAbs.startsWith(iAbs + '\\')` on the
absolute forms. -/
def Path.inside (cwd self other : JStr) : Bool :=
  let iAbs := jsResolve cwd other
  let tAbs := jsResolve cwd self
  (iAbs ++ ['/']).isPrefixOf tAbs || (iAbs ++ ['\\']).isPrefixOf tAbs

/-- Characters with a special meaning in a JS regular expression. -/
def regexSpecial (c : Char) : Bool :=
  c = '\\' ∨ c = '^' ∨ c = '$' ∨ c = '.' ∨ c = '|' ∨ c = '?' ∨ c = '*' ∨
  c = '+' ∨ c = '(' ∨ c = ')' ∨ c = '[' ∨ c = ']' ∨ c = '{' ∨ c = '}'

/-- A string that is interpreted purely literally when interpolated into a
JS regular expression. -/
def regexSafe (s : JStr) : Bool :=
  s.all (fun c => !regexSpecial c)

/-- Well-formedness of `new RegExp(pattern)`: scans for a dangling escape,
an unterminated character class and unbalanced groups (`depth` open groups
so far, `inClass` inside `[...]`).  `SyntaxError` on construction is
modelled as this scanner returning `false`. -/
def regexValidAux : JStr → Nat → Bool → Bool
  | [], depth, inClass => !inClass && depth == 0
  | '\\' :: rest, depth, inClass =>
    match rest with
    | [] => false
    | _ :: r => regexValidAux r depth inClass
  | '[' :: r, depth, false => regexValidAux r depth true
  | ']' :: r, depth, true => regexValidAux r depth false
  | '(' :: r, depth, false => regexValidAux r (depth + 1) false
  | ')' :: r, depth, false => depth != 0 && regexValidAux r (depth - 1) false
  | _ :: r, depth, inClass => regexValidAux r depth inClass

/-- Whether `new RegExp(pattern)` constructs without throwing. -/
def regexValid (pattern : JStr) : Bool :=
  regexValidAux pattern 0 false

deriving instance DecidableEq for Except

/-- The pattern string `` `[\/\\\\]{0,1}${basename}$` `` built by
`Path.prototype.pop` (JS template escapes resolved: the character class
holds `'/'` and an escaped `'\'`). -/
def popPattern (b : JStr) : JStr :=
  str "[/\\\\]\x7b0,1\x7d" ++ b ++ ['$']

/-- First-match semantics of `pop`'s regex on its own string: the match
must end at the string end, the optional leading separator is preferred
(longer match starts further left). -/
def popResult (s : JStr) : JStr :=
  let b := jsBasename s
  if ('/' :: b).isSuffixOf s then s.take (s.length - (b.length + 1))
  else if ('\\' :: b).isSuffixOf s then s.take (s.length - (b.length + 1))
  else if b.isSuffixOf s then s.take (s.length - b.length)
  else s

/-- `Path.prototype.pop`: builds a regex from the (uninterpreted) basename
and strips the first match; constructing the regex throws when the
basename makes the pattern ill-formed. -/
def Path.pop (s : JStr) : Except JStr JStr :=
  if regexValid (popPattern (jsBasename s)) then .ok (popResult s)
  else .error (str "SyntaxError: Invalid regular expression")

/-- Does `pre` followed by one separator character (`'/'` or `'\'`) match
at the very start of `s`?  (One alternative of the class `[/\\]`.) -/
def matchAt (pre s : JStr) : Bool :=
  (pre ++ ['/']).isPrefixOf s || (pre ++ ['\\']).isPrefixOf s

/-- JS `s.replace(re, '')` for the unanchored pattern `pre[/\\]`: remove
the leftmost occurrence of `pre` followed by one separator; no occurrence
leaves the string unchanged. -/
def removeFirstMatch (pre : JStr) : JStr → JStr
  | [] => []
  | c :: rest =>
    if matchAt pre (c :: rest) then (c :: rest).drop (pre.length + 1)
    else c :: removeFirstMatch pre rest

/-- The pattern string `` `${iAbs}[/\\\\]` `` built by
`Path.prototype.relativeTo`. -/
def relPattern (iAbs : JStr) : JStr :=
  iAbs ++ str "[/\\\\]"

/-- `Path.prototype.relativeTo`: strips the first occurrence of the other
path's absolute form plus one separator from this path's absolute form;
constructing the regex throws when the interpolated absolute form makes
the pattern ill-formed. -/
def Path.relativeTo (cwd self other : JStr) : Except JStr JStr :=
  let iAbs := jsResolve cwd other
  let tAbs := jsResolve cwd self
  if regexValid (relPattern iAbs) then .ok (removeFirstMatch iAbs tAbs)
  else .error (str "SyntaxError: Invalid regular expression")

mutual
/-- A TreeNode object `{ path, isDirectory, children }` as built by
`FS.tree`; `children` is the possibly-absent JS property (generic in the
path type so the same shape serves the heap model of `clone()`). -/
inductive TreeNode (α : Type) : Type where
  | mk (path : α) (isDirectory : Bool) (children : Children α) : TreeNode α

/-- The `children` property: JS `undefined` or an array of nodes. -/
inductive Children (α : Type) : Type where
  | none : Children α
  | some (f : Forest α) : Children α

/-- A JS array of TreeNodes. -/
inductive Forest (α : Type) : Type where
  | nil : Forest α
  | cons (t : TreeNode α) (f : Forest α) : Forest α
end

deriving instance DecidableEq for TreeNode

def TreeNode.path : TreeNode α → α
  | .mk p _ _ => p

def TreeNode.isDirectory : TreeNode α → Bool
  | .mk _ d _ => d

def TreeNode.children : TreeNode α → Children α
  | .mk _ _ c => c

def Forest.toList : Forest α → List (TreeNode α)
  | .nil => []
  | .cons t f => t :: f.toList

def Forest.ofList : List (TreeNode α) → Forest α
  | [] => .nil
  | t :: ts => .cons t (Forest.ofList ts)

mutual
/-- `FS.tree.flatten`: push the node's own path, stop unless the node is a
directory with a non-empty children array, else concatenate the flattened
children in order. -/
def TreeNode.flatten : TreeNode α → List α
  | .mk p d c =>
    match d, c with
    | true, .some (.cons t f) => p :: flattenForest (.cons t f)
    | _, _ => [p]

def flattenForest : Forest α → List α
  | .nil => []
  | .cons t f => t.flatten ++ flattenForest f
end

mutual
/-- `FS.tree.files`: a non-directory yields its own path; a directory
yields the concatenation over its children (nothing when the children
array is absent or empty). -/
def TreeNode.files : TreeNode α → List α
  | .mk p d c =>
    match d, c with
    | false, _ => [p]
    | true, .none => []
    | true, .some f => filesForest f

def filesForest : Forest α → List α
  | .nil => []
  | .cons t f => t.files ++ filesForest f
end

mutual
/-- `FS.tree.directories`: nothing unless the node is a directory with a
non-empty children array; else its own path followed by the concatenation
over its children. -/
def TreeNode.directories : TreeNode α → List α
  | .mk p d c =>
    match d, c with
    | true, .some (.cons t f) => p :: directoriesForest (.cons t f)
    | _, _ => []

def directoriesForest : Forest α → List α
  | .nil => []
  | .cons t f => t.directories ++ directoriesForest f
end

mutual
/-- Total number of nodes of a TreeNode graph (the root plus all entries
below it). -/
def TreeNode.size : TreeNode α → Nat
  | .mk _ _ c => 1 + sizeChildren c

def sizeChildren : Children α → Nat
  | .none => 0
  | .some f => sizeForest f

def sizeForest : Forest α → Nat
  | .nil => 0
  | .cons t f => t.size + sizeForest f
end

mutual
/-- All nodes of a TreeNode graph, in pre-order. -/
def TreeNode.nodes : TreeNode α → List (TreeNode α)
  | .mk p d c => .mk p d c :: nodesChildren c

def nodesChildren : Children α → List (TreeNode α)
  | .none => []
  | .some f => nodesForest f

def nodesForest : Forest α → List (TreeNode α)
  | .nil => []
  | .cons t f => t.nodes ++ nodesForest f
end

mutual
/-- Map over every stored path of a TreeNode graph. -/
def TreeNode.mapPath (g : α → β) : TreeNode α → TreeNode β
  | .mk p d c => .mk (g p) d (mapPathChildren g c)

def mapPathChildren (g : α → β) : Children α → Children β
  | .none => .none
  | .some f => .some (mapPathForest g f)

def mapPathForest (g : α → β) : Forest α → Forest β
  | .nil => .nil
  | .cons t f => .cons (t.mapPath g) (mapPathForest g f)
end

/-- `nfs.stat` result; only the `isDirectory()` observation is used by the
tree resolver. -/
structure NStat where
  isDirectory : Bool
deriving DecidableEq

/-- The external Storage capability (thin wrappers over `fs/promises`):
each primitive takes the already-resolved absolute path string and may
fail with a JS error (message string). -/
structure Storage where
  access : JStr → Bool
  stat : JStr → Except JStr NStat
  readdir : JStr → Except JStr (List JStr)

/-- Message of the error thrown by `FS.stat` when the access check fails. -/
def notAccessibleMsg (abs : JStr) : JStr :=
  str "'" ++ abs ++ str "' does not exist or is not accessible by this user."

/-- Message of the error thrown by `FS.ls` on a non-directory path. -/
def lsMsg (abs : JStr) : JStr :=
  str "You can not perform an 'ls' on a non-directory path (" ++ abs ++ str ")."

/-- Modelling artifact: error produced when the fuel bounding the
unbounded JS recursion runs out; no terminating run produces it. -/
def fuelMsg : JStr :=
  str "fuel exhausted"

/-- `FS.isAccessible`: `nfs.access` on the absolute form, errors mapped to
`false`. -/
def FS.isAccessible (S : Storage) (cwd p : JStr) : Bool :=
  S.access (jsResolve cwd p)

/-- `FS.stat`: reject with the NotAccessible error when the access check
fails, else delegate to `nfs.stat` on the absolute form. -/
def FS.stat (S : Storage) (cwd p : JStr) : Except JStr NStat :=
  let abs := jsResolve cwd p
  if FS.isAccessible S cwd abs then S.stat abs
  else .error (notAccessibleMsg abs)

/-- `FS.ls`: stat the path, reject on a non-directory, list the children
and prefix each child name with the (raw) parent path via the platform
join. -/
def FS.ls (S : Storage) (cwd p : JStr) : Except JStr (List JStr) :=
  match FS.stat S cwd p with
  | .error e => .error e
  | .ok st =>
    if !st.isDirectory then .error (lsMsg (jsResolve cwd p))
    else
      match S.readdir (jsResolve cwd p) with
      | .error e => .error e
      | .ok names => .ok (names.map (fun n => jsJoin p n))

/-- Sequentialisation of the `Promise.all` over the per-child `FS.stat`
calls: first failure in array order wins. -/
def FS.statAll (S : Storage) (cwd : JStr) : List JStr → Except JStr (List NStat)
  | [] => .ok []
  | c :: cs =>
    match FS.stat S cwd c with
    | .error e => .error e
    | .ok s =>
      match FS.statAll S cwd cs with
      | .error e => .error e
      | .ok ss => .ok (s :: ss)

/-- Left-to-right short-circuiting map into `Except` (the sequentialised
`Promise.all` over the recursive resolutions of one directory level). -/
def exceptMapList (g : α → Except JStr β) : List α → Except JStr (List β)
  | [] => .ok []
  | x :: xs =>
    match g x with
    | .error e => .error e
    | .ok y =>
      match exceptMapList g xs with
      | .error e => .error e
      | .ok ys => .ok (y :: ys)

/-- `FS.tree._resolveChildren`, fuelled (defined through `Nat.rec` so that
concrete runs reduce definitionally).  A non-directory node is returned
unchanged; otherwise the children are listed, their stats gathered
(`Promise.all`), a provisional node is built per child and recursed into
(the source recurses into every child — its guard re-tests the parent's
`isDirectory` — which is a no-op on non-directories), and the fully
resolved children array is attached. -/
def FS.resolveChildren (S : Storage) (cwd : JStr) (fuel : Nat) :
    TreeNode JStr → Except JStr (TreeNode JStr) :=
  Nat.rec (motive := fun _ => TreeNode JStr → Except JStr (TreeNode JStr))
    (fun _ => .error fuelMsg)
    (fun _ ih node =>
      match node with
      | .mk p d c =>
        if !d then .ok (.mk p d c)
        else
          match FS.ls S cwd p with
          | .error e => .error e
          | .ok children =>
            if children = [] then .ok (.mk p d c)
            else
              match FS.statAll S cwd children with
              | .error e => .error e
              | .ok stats =>
                match exceptMapList
                    (fun cs => ih (.mk cs.1 cs.2.isDirectory .none))
                    (children.zip stats) with
                | .error e => .error e
                | .ok childNodes => .ok (.mk p d (.some (Forest.ofList childNodes))))
    fuel

/-- `FS.tree`: stat the root, build the provisional node, resolve its
children. -/
def FS.tree (S : Storage) (cwd : JStr) (fuel : Nat) (p : JStr) :
    Except JStr (TreeNode JStr) :=
  match FS.stat S cwd p with
  | .error e => .error e
  | .ok st => FS.resolveChildren S cwd fuel (.mk p st.isDirectory .none)

/-- The children of a `Children` value as a list. -/
def childList : Children α → List (TreeNode α)
  | .none => []
  | .some f => f.toList

/-- The segment stack of the absolute form `jsResolve cwd s` (the
resolver drops the `cwd` for an absolute input). -/
def stackOf (cwd s : JStr) : List JStr :=
  if isAbs s then normStack false (segs s)
  else normStack false (segs cwd ++ segs s)

/-- Modelled from the spec: "true iff the absolute form of `this` is a
strict descendant of the absolute form of `other` (a proper-subpath
test)" — the other's absolute-form segments are a proper prefix of this
path's absolute-form segments.  Stated for comparison with the code's
`Path.inside`. -/
def specStrictDescendant (cwd self other : JStr) : Prop :=
  jsResolve cwd self ≠ jsResolve cwd other ∧
  (segs (jsResolve cwd other)).filter (fun e => e ≠ []) <+:
    (segs (jsResolve cwd self)).filter (fun e => e ≠ [])

instance (cwd self other : JStr) : Decidable (specStrictDescendant cwd self other) := by
  unfold specStrictDescendant; infer_instance

/-- What a real filesystem guarantees about directory listings: entries
are distinct plain names (no separators, no dot navigation). -/
def GoodStorage (S : Storage) : Prop :=
  ∀ p l, S.readdir p = .ok l → l.Nodup ∧ ∀ n ∈ l, validName n

/-- The TreeNode invariant claimed by the spec: a non-directory node never
carries a `children` property. -/
def NodeInv (n : TreeNode α) : Prop :=
  n.isDirectory = false → n.children = Children.none

/-- `NodeInv` at every node of the graph. -/
def TreeInv (t : TreeNode α) : Prop :=
  ∀ n ∈ t.nodes, NodeInv n

/-! ### Heap model of `Path` object identity

`Path` objects are mutable JS objects; `clone()` allocates a fresh one.
To state the freshness/frame claim about the query results, paths are
modelled as references (`Nat`) into a heap of strings, and the queries are
re-run in a heap-threading style where `node.path.clone()` allocates. -/

/-- The JS heap restricted to `Path` objects: cell `r` holds the `_path`
string of the `Path` object with reference `r`. -/
abbrev Heap := List JStr

/-- Read a `Path` object's string. -/
def heapGet (h : Heap) (r : Nat) : JStr := h.getD r []

/-- Overwrite a `Path` object's string (what every in-place composition
operation does to `this._path`). -/
def heapSet (h : Heap) (r : Nat) (s : JStr) : Heap := h.set r s

/-- An in-place composition operation (`append`, `prepend`, `pop`,
`replace`, `prefix`, `postfix`): computes a new string from the object's
current string and stores it back into the same object. -/
def mutateR (h : Heap) (r : Nat) (g : JStr → JStr) : Heap :=
  heapSet h r (g (heapGet h r))

/-- Allocate a fresh `Path` object. -/
def heapAlloc (h : Heap) (s : JStr) : Heap × Nat := (h ++ [s], h.length)

/-- `Path.prototype.clone`: `Path.from(this.path)` on a string allocates a
fresh `Path` with the same content. -/
def cloneR (h : Heap) (r : Nat) : Heap × Nat := heapAlloc h (heapGet h r)

mutual
/-- `FS.tree.flatten` re-run on reference-valued trees, threading the
heap: `paths.push(node.path.clone())` allocates. -/
def flattenR : Heap → TreeNode Nat → Heap × List Nat
  | h, .mk r d c =>
    let a := cloneR h r
    match d, c with
    | true, .some (.cons t f) =>
      let b := flattenRForest a.1 (.cons t f)
      (b.1, a.2 :: b.2)
    | _, _ => (a.1, [a.2])

def flattenRForest : Heap → Forest Nat → Heap × List Nat
  | h, .nil => (h, [])
  | h, .cons t f =>
    let a := flattenR h t
    let b := flattenRForest a.1 f
    (b.1, a.2 ++ b.2)
end

mutual
/-- `FS.tree.files` on reference-valued trees, threading the heap. -/
def filesR : Heap → TreeNode Nat → Heap × List Nat
  | h, .mk r d c =>
    match d, c with
    | false, _ =>
      let a := cloneR h r
      (a.1, [a.2])
    | true, .none => (h, [])
    | true, .some f => filesRForest h f

def filesRForest : Heap → Forest Nat → Heap × List Nat
  | h, .nil => (h, [])
  | h, .cons t f =>
    let a := filesR h t
    let b := filesRForest a.1 f
    (b.1, a.2 ++ b.2)
end

mutual
/-- `FS.tree.directories` on reference-valued trees, threading the heap. -/
def directoriesR : Heap → TreeNode Nat → Heap × List Nat
  | h, .mk r d c =>
    match d, c with
    | true, .some (.cons t f) =>
      let a := cloneR h r
      let b := directoriesRForest a.1 (.cons t f)
      (b.1, a.2 :: b.2)
    | _, _ => (h, [])

def directoriesRForest : Heap → Forest Nat → Heap × List Nat
  | h, .nil => (h, [])
  | h, .cons t f =>
    let a := directoriesR h t
    let b := directoriesRForest a.1 f
    (b.1, a.2 ++ b.2)
end

/-- Every `Path` reference stored in the tree is a live heap cell. -/
def WFR (h : Heap) (t : TreeNode Nat) : Prop :=
  ∀ n ∈ t.nodes, n.path < h.length

instance (h : Heap) (t : TreeNode Nat) : Decidable (WFR h t) := by
  unfold WFR; infer_instance

/-- The value-level tree a reference-valued tree denotes in heap `h`. -/
def readTree (h : Heap) (t : TreeNode Nat) : TreeNode JStr :=
  t.mapPath (heapGet h)

/-- Concrete storage for the spec §8 scenario: root `/a` holding the file
`/a/x.txt` and the empty directory `/a/y`, listed in that order. -/
def scenarioStorage : Storage where
  access := fun p =>
    p = str "/a" ∨ p = str "/a/x.txt" ∨ p = str "/a/y"
  stat := fun p =>
    if p = str "/a" then .ok ⟨true⟩
    else if p = str "/a/x.txt" then .ok ⟨false⟩
    else if p = str "/a/y" then .ok ⟨true⟩
    else .error (str "ENOENT")
  readdir := fun p =>
    if p = str "/a" then .ok [str "x.txt", str "y"]
    else if p = str "/a/y" then .ok []
    else .error (str "ENOTDIR")

/-- The TreeNode graph `resolve('/a')` builds in the §8 scenario. -/
def scenarioTree : TreeNode JStr :=
  .mk (str "/a") true
    (.some (.cons (.mk (str "/a/x.txt") false .none)
      (.cons (.mk (str "/a/y") true .none) .nil)))

/-- Concrete storage with one broken child: directory `/b` lists
`good` (an accessible file) and `bad`, whose access check fails, so the
stat of `/b/bad` rejects. -/
def failStorage : Storage where
  access := fun p => p = str "/b" ∨ p = str "/b/good"
  stat := fun p =>
    if p = str "/b" then .ok ⟨true⟩
    else if p = str "/b/good" then .ok ⟨false⟩
    else .error (str "ENOENT")
  readdir := fun p =>
    if p = str "/b" then .ok [str "good", str "bad"]
    else .error (str "ENOTDIR")

/-- Concrete reference-valued tree for exercising the heap model: cell 0
holds `/a` (a directory), cell 1 holds `/a/x` (a file below it). -/
def demoHeap : Heap := [str "/a", str "/a/x"]

/-- The reference tree over `demoHeap`. -/
def demoTreeR : TreeNode Nat :=
  .mk 0 true (.some (.cons (.mk 1 false .none) .nil))

/-! ## Theorems -/

theorem TreeNode.nodeInd {α : Type} {motive : TreeNode α → Prop}
    (ind : ∀ p d c, (∀ x ∈ childList c, motive x) → motive (TreeNode.mk p d c)) :
    ∀ t, motive t := by
  intro t
  refine TreeNode.rec (motive_1 := motive)
    (motive_2 := fun c => ∀ x ∈ childList c, motive x)
    (motive_3 := fun f => ∀ x ∈ f.toList, motive x)
    (fun p d c ih => ind p d c ih) ?_ ?_ ?_ ?_ t
  · intro x hx; simp [childList] at hx
  · intro f ih x hx
    simp only [childList] at hx
    exact ih x hx
  · intro x hx; simp [Forest.toList] at hx
  · intro u f iht ihf x hx
    simp only [Forest.toList, List.mem_cons] at hx
    rcases hx with h | h
    · cases h; exact iht
    · exact ihf x h

theorem Forest.forestInd {α : Type} {motive : Forest α → Prop}
    (hnil : motive .nil) (hcons : ∀ t f, motive f → motive (.cons t f)) :
    ∀ f, motive f := by
  intro f
  exact Forest.rec (motive_1 := fun _ => True) (motive_2 := fun _ => True)
    (motive_3 := motive)
    (fun _ _ _ _ => trivial) trivial (fun _ _ => trivial)
    hnil (fun t f _ hf => hcons t f hf) f

theorem toList_ofList {α : Type} (l : List (TreeNode α)) :
    (Forest.ofList l).toList = l := by
  induction l with
  | nil => rfl
  | cons t ts ih => simp [Forest.ofList, Forest.toList, ih]

theorem flatten_leaf {α : Type} (p : α) (c : Children α) :
    (TreeNode.mk p false c).flatten = [p] := by
  cases c with
  | none => rfl
  | some f => cases f <;> rfl

theorem flatten_none {α : Type} (p : α) (d : Bool) :
    (TreeNode.mk p d Children.none).flatten = [p] := by
  cases d <;> rfl

theorem flatten_emptyc {α : Type} (p : α) (d : Bool) :
    (TreeNode.mk p d (Children.some Forest.nil)).flatten = [p] := by
  cases d <;> rfl

theorem flattenForest_eq {α : Type} (f : Forest α) :
    flattenForest f = (f.toList.map TreeNode.flatten).flatten := by
  induction f using Forest.forestInd with
  | hnil => rfl
  | hcons t f ih => simp [flattenForest, Forest.toList, ih]

theorem flatten_dir {α : Type} (p : α) (f : Forest α) (hf : f ≠ .nil) :
    (TreeNode.mk p true (Children.some f)).flatten =
      p :: (f.toList.map TreeNode.flatten).flatten := by
  cases f with
  | nil => exact absurd rfl hf
  | cons t f' =>
    show p :: flattenForest (.cons t f') = _
    rw [flattenForest_eq]

theorem flatten_head {α : Type} (t : TreeNode α) :
    ∃ rest, t.flatten = t.path :: rest := by
  obtain ⟨p, d, c⟩ := t
  cases d with
  | false => exact ⟨[], flatten_leaf p c⟩
  | true =>
    cases c with
    | none => exact ⟨[], flatten_none p true⟩
    | some f =>
      cases f with
      | nil => exact ⟨[], flatten_emptyc p true⟩
      | cons u f' => exact ⟨_, flatten_dir p (.cons u f') (by simp)⟩

theorem files_leaf {α : Type} (p : α) (c : Children α) :
    (TreeNode.mk p false c).files = [p] := rfl

theorem files_none {α : Type} (p : α) :
    (TreeNode.mk p true Children.none).files = [] := rfl

theorem filesForest_eq {α : Type} (f : Forest α) :
    filesForest f = (f.toList.map TreeNode.files).flatten := by
  induction f using Forest.forestInd with
  | hnil => rfl
  | hcons t f ih => simp [filesForest, Forest.toList, ih]

theorem files_dir {α : Type} (p : α) (f : Forest α) :
    (TreeNode.mk p true (Children.some f)).files =
      (f.toList.map TreeNode.files).flatten := by
  show filesForest f = _
  exact filesForest_eq f

theorem directories_leaf {α : Type} (p : α) (c : Children α) :
    (TreeNode.mk p false c).directories = [] := by
  cases c with
  | none => rfl
  | some f => cases f <;> rfl

theorem directories_none {α : Type} (p : α) (d : Bool) :
    (TreeNode.mk p d Children.none).directories = [] := by
  cases d <;> rfl

theorem directories_emptyc {α : Type} (p : α) (d : Bool) :
    (TreeNode.mk p d (Children.some Forest.nil)).directories = [] := by
  cases d <;> rfl

theorem directoriesForest_eq {α : Type} (f : Forest α) :
    directoriesForest f = (f.toList.map TreeNode.directories).flatten := by
  induction f using Forest.forestInd with
  | hnil => rfl
  | hcons t f ih => simp [directoriesForest, Forest.toList, ih]

theorem directories_dir {α : Type} (p : α) (f : Forest α) (hf : f ≠ .nil) :
    (TreeNode.mk p true (Children.some f)).directories =
      p :: (f.toList.map TreeNode.directories).flatten := by
  cases f with
  | nil => exact absurd rfl hf
  | cons t f' =>
    show p :: directoriesForest (.cons t f') = _
    rw [directoriesForest_eq]

theorem nodes_mk {α : Type} (p : α) (d : Bool) (c : Children α) :
    (TreeNode.mk p d c).nodes =
      TreeNode.mk p d c :: ((childList c).map TreeNode.nodes).flatten := by
  show TreeNode.mk p d c :: nodesChildren c = _
  congr 1
  cases c with
  | none => rfl
  | some f =>
    show nodesForest f = _
    induction f using Forest.forestInd with
    | hnil => rfl
    | hcons t f ih => simp [nodesForest, childList, Forest.toList] at ih ⊢; simp [ih]

theorem self_mem_nodes {α : Type} (t : TreeNode α) : t ∈ t.nodes := by
  obtain ⟨p, d, c⟩ := t
  rw [nodes_mk]
  exact List.mem_cons_self _ _

theorem sizeForest_eq {α : Type} (f : Forest α) :
    sizeForest f = (f.toList.map TreeNode.size).sum := by
  induction f using Forest.forestInd with
  | hnil => rfl
  | hcons t f ih => simp [sizeForest, Forest.toList, ih]

theorem size_mk {α : Type} (p : α) (d : Bool) (c : Children α) :
    (TreeNode.mk p d c).size = 1 + ((childList c).map TreeNode.size).sum := by
  show 1 + sizeChildren c = _
  congr 1
  cases c with
  | none => rfl
  | some f => exact sizeForest_eq f

theorem path_mk {α : Type} (p : α) (d : Bool) (c : Children α) :
    (TreeNode.mk p d c).path = p := rfl

theorem isDirectory_mk {α : Type} (p : α) (d : Bool) (c : Children α) :
    (TreeNode.mk p d c).isDirectory = d := rfl

theorem children_mk {α : Type} (p : α) (d : Bool) (c : Children α) :
    (TreeNode.mk p d c).children = c := rfl

theorem mem_nodes_trans {α : Type} {p : α} {d : Bool} {c : Children α}
    {t' n : TreeNode α} (ht : t' ∈ childList c) (hn : n ∈ t'.nodes) :
    n ∈ (TreeNode.mk p d c).nodes := by
  rw [nodes_mk]
  exact List.mem_cons_of_mem _ (List.mem_flatten.mpr ⟨t'.nodes, List.mem_map_of_mem _ ht, hn⟩)

theorem files_are_leaves {α : Type} :
    ∀ (t : TreeNode α), ∀ x ∈ t.files,
      ∃ n ∈ t.nodes, n.path = x ∧ n.isDirectory = false := by
  intro t
  induction t using TreeNode.nodeInd with
  | ind p d c ih =>
    intro x hx
    cases d with
    | false =>
      rw [files_leaf] at hx
      simp only [List.mem_singleton] at hx
      exact ⟨.mk p false c, self_mem_nodes _, by simp [path_mk, hx], rfl⟩
    | true =>
      cases c with
      | none => rw [files_none] at hx; cases hx
      | some f =>
        rw [files_dir] at hx
        obtain ⟨l, hl, hxl⟩ := List.mem_flatten.mp hx
        obtain ⟨t', ht', rfl⟩ := List.mem_map.mp hl
        obtain ⟨n, hn, hnp, hnd⟩ := ih t' (by simpa [childList] using ht') x hxl
        exact ⟨n, mem_nodes_trans (by simpa [childList] using ht') hn, hnp, hnd⟩

theorem directories_are_dirs {α : Type} :
    ∀ (t : TreeNode α), ∀ x ∈ t.directories,
      ∃ n ∈ t.nodes, n.path = x ∧ n.isDirectory = true ∧
        ∃ f, n.children = Children.some f ∧ f ≠ Forest.nil := by
  intro t
  induction t using TreeNode.nodeInd with
  | ind p d c ih =>
    intro x hx
    cases d with
    | false => rw [directories_leaf] at hx; cases hx
    | true =>
      cases c with
      | none => rw [directories_none] at hx; cases hx
      | some f =>
        cases f with
        | nil => rw [directories_emptyc] at hx; cases hx
        | cons u f' =>
          rw [directories_dir p (.cons u f') (by simp)] at hx
          rcases List.mem_cons.mp hx with rfl | hx'
          · exact ⟨.mk x true (.some (.cons u f')), self_mem_nodes _, rfl, rfl,
              .cons u f', rfl, by simp⟩
          · obtain ⟨l, hl, hxl⟩ := List.mem_flatten.mp hx'
            obtain ⟨t', ht', rfl⟩ := List.mem_map.mp hl
            obtain ⟨n, hn, hrest⟩ := ih t' (by simpa [childList] using ht') x hxl
            exact ⟨n, mem_nodes_trans (by simpa [childList] using ht') hn, hrest⟩

theorem rc_zero (S : Storage) (cwd : JStr) (t : TreeNode JStr) :
    FS.resolveChildren S cwd 0 t = .error fuelMsg := rfl

theorem rc_succ (S : Storage) (cwd : JStr) (fuel : Nat) (p : JStr) (d : Bool)
    (c : Children JStr) :
    FS.resolveChildren S cwd (fuel + 1) (.mk p d c) =
      (if !d then .ok (.mk p d c)
       else
         match FS.ls S cwd p with
         | .error e => .error e
         | .ok children =>
           if children = [] then .ok (.mk p d c)
           else
             match FS.statAll S cwd children with
             | .error e => .error e
             | .ok stats =>
               match exceptMapList
                   (fun cs => FS.resolveChildren S cwd fuel (.mk cs.1 cs.2.isDirectory .none))
                   (children.zip stats) with
               | .error e => .error e
               | .ok childNodes => .ok (.mk p d (.some (Forest.ofList childNodes)))) := rfl

theorem exceptMapList_ok {α β : Type} {g : α → Except JStr β} :
    ∀ {xs : List α} {ys : List β}, exceptMapList g xs = .ok ys →
      List.Forall₂ (fun x y => g x = .ok y) xs ys := by
  intro xs
  induction xs with
  | nil => intro ys h; simp [exceptMapList] at h; simp [← h]
  | cons x xs ih =>
    intro ys h
    simp only [exceptMapList] at h
    cases hx : g x with
    | error e => rw [hx] at h; cases h
    | ok y =>
      rw [hx] at h
      cases hxs : exceptMapList g xs with
      | error e => rw [hxs] at h; cases h
      | ok ys' =>
        rw [hxs] at h
        cases h
        exact List.Forall₂.cons hx (ih hxs)

theorem exceptMapList_ok_mem {α β : Type} {g : α → Except JStr β}
    {xs : List α} {ys : List β} (h : exceptMapList g xs = .ok ys) :
    ∀ y ∈ ys, ∃ x ∈ xs, g x = .ok y := by
  have hf := exceptMapList_ok h
  clear h
  induction hf with
  | nil => intro y hy; cases hy
  | cons hg htail ih =>
    intro y hy
    rcases List.mem_cons.mp hy with rfl | hy'
    · exact ⟨_, List.mem_cons_self _ _, hg⟩
    · obtain ⟨x, hx, hgx⟩ := ih y hy'
      exact ⟨x, List.mem_cons_of_mem _ hx, hgx⟩

theorem ls_ok {S : Storage} {cwd p : JStr} {children : List JStr}
    (h : FS.ls S cwd p = .ok children) :
    ∃ st names, FS.stat S cwd p = .ok st ∧ st.isDirectory = true ∧
      S.readdir (jsResolve cwd p) = .ok names ∧
      children = names.map (fun n => jsJoin p n) := by
  unfold FS.ls at h
  split at h
  · cases h
  · rename_i st hstat
    split at h
    · cases h
    · rename_i hd
      split at h
      · cases h
      · rename_i names hrd
        cases h
        exact ⟨st, names, hstat, by simpa using hd, hrd, rfl⟩

theorem resolveWF :
    ∀ (fuel : Nat) (S : Storage) (cwd p : JStr) (d : Bool) (t : TreeNode JStr),
      FS.resolveChildren S cwd fuel (.mk p d .none) = .ok t →
      t.path = p ∧ t.isDirectory = d ∧ TreeInv t := by
  intro fuel
  induction fuel with
  | zero => intro S cwd p d t h; rw [rc_zero] at h; cases h
  | succ fuel ih =>
    intro S cwd p d t h
    rw [rc_succ] at h
    cases d with
    | false =>
      simp only [Bool.not_false, if_pos] at h
      cases h
      refine ⟨rfl, rfl, ?_⟩
      intro n hn
      rw [nodes_mk] at hn
      simp only [childList, List.map_nil, List.flatten_nil] at hn
      rcases List.mem_cons.mp hn with rfl | hn'
      · intro _; rfl
      · cases hn'
    | true =>
      simp only [Bool.not_true, Bool.false_eq_true, if_false] at h
      split at h
      · cases h
      · rename_i children hls
        split at h
        · cases h
          refine ⟨rfl, rfl, ?_⟩
          intro n hn
          rw [nodes_mk] at hn
          simp only [childList, List.map_nil, List.flatten_nil] at hn
          rcases List.mem_cons.mp hn with rfl | hn'
          · intro hfd; cases hfd
          · cases hn'
        · split at h
          · cases h
          · rename_i stats hstats
            split at h
            · cases h
            · rename_i childNodes hmap
              cases h
              refine ⟨rfl, rfl, ?_⟩
              intro n hn
              rw [nodes_mk] at hn
              rcases List.mem_cons.mp hn with rfl | hn'
              · intro hfd; cases hfd
              · obtain ⟨l, hl, hnl⟩ := List.mem_flatten.mp hn'
                obtain ⟨t', ht', rfl⟩ := List.mem_map.mp hl
                simp only [childList, toList_ofList] at ht'
                obtain ⟨x, _, hgx⟩ := exceptMapList_ok_mem hmap t' ht'
                exact (ih S cwd x.1 x.2.isDirectory t' hgx).2.2 n hnl

theorem tree_inv {S : Storage} {cwd : JStr} {fuel : Nat} {p : JStr} {t : TreeNode JStr}
    (h : FS.tree S cwd fuel p = .ok t) :
    t.path = p ∧ TreeInv t := by
  unfold FS.tree at h
  cases hstat : FS.stat S cwd p with
  | error e => rw [hstat] at h; cases h
  | ok st =>
    rw [hstat] at h
    obtain ⟨h1, _, h3⟩ := resolveWF fuel S cwd p st.isDirectory t h
    exact ⟨h1, h3⟩

theorem statAll_append_error {S : Storage} {cwd : JStr} {cs₁ : List JStr}
    {c : JStr} {cs₂ : List JStr} {e : JStr}
    (hok : ∀ c' ∈ cs₁, ∃ s, FS.stat S cwd c' = .ok s)
    (hfail : FS.stat S cwd c = .error e) :
    FS.statAll S cwd (cs₁ ++ c :: cs₂) = .error e := by
  induction cs₁ with
  | nil => simp only [List.nil_append, FS.statAll, hfail]
  | cons a as ih =>
    obtain ⟨s, hs⟩ := hok a (List.mem_cons_self _ _)
    have ih' := ih (fun c' h => hok c' (List.mem_cons_of_mem _ h))
    simp only [List.cons_append, FS.statAll, hs, List.append_eq, ih']

/-- C2: during resolution of a directory whose listing contains a child
whose stat fails (all earlier children statting fine), the whole `tree`
call rejects with exactly that failure — no partial tree is returned —
and when the failure is the access check the error names the offending
absolute path. -/
theorem C2_fail_fast_no_partial_tree
    (S : Storage) (cwd : JStr) (fuel : Nat) (p : JStr) (st : NStat)
    (names cs₁ : List JStr) (c : JStr) (cs₂ : List JStr) (e : JStr)
    (hstat : FS.stat S cwd p = .ok st)
    (hdir : st.isDirectory = true)
    (hrd : S.readdir (jsResolve cwd p) = .ok names)
    (hsplit : names.map (fun n => jsJoin p n) = cs₁ ++ c :: cs₂)
    (hok : ∀ c' ∈ cs₁, ∃ s, FS.stat S cwd c' = .ok s)
    (hfail : FS.stat S cwd c = .error e) :
    FS.tree S cwd (fuel + 1) p = .error e ∧
    (∀ t, FS.tree S cwd (fuel + 1) p ≠ .ok t) ∧
    (S.access (jsResolve cwd (jsResolve cwd c)) = false →
      e = notAccessibleMsg (jsResolve cwd c)) := by
  have hls : FS.ls S cwd p = .ok (names.map (fun n => jsJoin p n)) := by
    unfold FS.ls
    simp only [hstat, hdir, Bool.not_true, Bool.false_eq_true, if_false, hrd]
  have hmain : FS.tree S cwd (fuel + 1) p = .error e := by
    unfold FS.tree
    simp only [hstat]
    rw [rc_succ]
    simp only [hdir, Bool.not_true, Bool.false_eq_true, if_false, hls, hsplit]
    rw [if_neg (by simp)]
    rw [statAll_append_error hok hfail]
  refine ⟨hmain, ?_, ?_⟩
  · intro t h
    rw [hmain] at h
    cases h
  · intro hacc
    unfold FS.stat at hfail
    simp only [FS.isAccessible, hacc, Bool.false_eq_true, if_false] at hfail
    cases hfail
    rfl

/-- C2 witness: in `failStorage`, `/b` lists `good` then `bad`; the stat
of `/b/bad` fails, `tree('/b')` rejects with the NotAccessible error
naming `/b/bad`. -/
theorem C2_witness :
    FS.tree failStorage (str "/w") 1 (str "/b") =
      .error (notAccessibleMsg (str "/b/bad")) :=
  (C2_fail_fast_no_partial_tree failStorage (str "/w") 0 (str "/b") ⟨true⟩
    [str "good", str "bad"] [jsJoin (str "/b") (str "good")]
    (jsJoin (str "/b") (str "bad")) [] (notAccessibleMsg (str "/b/bad"))
    (by decide) (by decide) (by decide) (by decide)
    (by
      intro c' hc'
      have hc : c' = jsJoin (str "/b") (str "good") := by simpa using hc'
      subst hc
      exact ⟨⟨false⟩, by decide⟩)
    (by decide)).1

/-- C9: every tree returned by `FS.tree` satisfies, at every node, that a
non-directory node has no `children` property; and a node with an absent
children property is indistinguishable from one with an empty children
array for all three queries. -/
theorem C9_node_invariant :
    (∀ (S : Storage) (cwd : JStr) (fuel : Nat) (p : JStr) (t : TreeNode JStr),
        FS.tree S cwd fuel p = .ok t →
        ∀ n ∈ t.nodes, n.isDirectory = false → n.children = Children.none) ∧
    (∀ (p : JStr) (b : Bool),
        (TreeNode.mk p b Children.none).flatten =
          (TreeNode.mk p b (Children.some Forest.nil)).flatten ∧
        (TreeNode.mk p b Children.none).files =
          (TreeNode.mk p b (Children.some Forest.nil)).files ∧
        (TreeNode.mk p b Children.none).directories =
          (TreeNode.mk p b (Children.some Forest.nil)).directories) := by
  constructor
  · intro S cwd fuel p t h n hn
    exact (tree_inv h).2 n hn
  · intro p b
    cases b <;> exact ⟨rfl, rfl, rfl⟩

/-- C9 witness: the resolved §8 scenario tree satisfies the invariant at
its file node. -/
theorem C9_witness :
    (TreeNode.mk (str "/a/x.txt") false Children.none).children = Children.none :=
  C9_node_invariant.1 scenarioStorage (str "/w") 2 (str "/a") scenarioTree
    (by decide) (TreeNode.mk (str "/a/x.txt") false Children.none) (by decide) rfl

/-- C5: `directories` yields nothing on a leaf, nothing on a directory
with an absent or empty children array, and otherwise the node's own path
followed by the recursion over the children in order; every path yielded
by `files` is the path of a leaf node of the tree, and every path yielded
by `directories` is the path of a non-empty directory node. -/
theorem C5_files_directories_partition :
    (∀ (p : JStr) (c : Children JStr), (TreeNode.mk p false c).directories = []) ∧
    (∀ (p : JStr) (d : Bool),
        (TreeNode.mk p d Children.none).directories = [] ∧
        (TreeNode.mk p d (Children.some Forest.nil)).directories = []) ∧
    (∀ (p : JStr) (f : Forest JStr), f ≠ .nil →
        (TreeNode.mk p true (Children.some f)).directories =
          p :: (f.toList.map TreeNode.directories).flatten) ∧
    (∀ t : TreeNode JStr, ∀ x ∈ t.files,
        ∃ n ∈ t.nodes, n.path = x ∧ n.isDirectory = false) ∧
    (∀ t : TreeNode JStr, ∀ x ∈ t.directories,
        ∃ n ∈ t.nodes, n.path = x ∧ n.isDirectory = true ∧
          ∃ f, n.children = Children.some f ∧ f ≠ Forest.nil) :=
  ⟨fun p c => directories_leaf p c,
   fun p d => ⟨directories_none p d, directories_emptyc p d⟩,
   fun p f hf => directories_dir p f hf,
   files_are_leaves,
   directories_are_dirs⟩

/-- C5 witness: in the §8 scenario tree, the single `files` entry
`/a/x.txt` is the path of a leaf node. -/
theorem C5_witness :
    ∃ n ∈ scenarioTree.nodes, n.path = str "/a/x.txt" ∧ n.isDirectory = false :=
  C5_files_directories_partition.2.2.2.1 scenarioTree (str "/a/x.txt") (by decide)

/-- C6 counterexample: resolving the §8 scenario root `/a` (file
`/a/x.txt` plus empty directory `/a/y`) and applying `directories` to the
root node does NOT yield the empty sequence. -/
theorem C6_counterexample :
    (FS.tree scenarioStorage (str "/w") 2 (str "/a")).map TreeNode.directories ≠
      .ok ([] : List JStr) := by decide

/-- C6 amended: `directories` on the resolved scenario root yields exactly
`['/a']` — the root is included (it is a non-empty directory); the empty
directory `/a/y` is excluded. -/
theorem C6_amended_root_included :
    (FS.tree scenarioStorage (str "/w") 2 (str "/a")).map TreeNode.directories =
      .ok [str "/a"] := by decide

/-! ### Segment and normalization machinery for the platform path model -/

theorem segs_ne_nil : ∀ s : JStr, segs s ≠ []
  | [] => by simp [segs]
  | c :: rest => by
    unfold segs
    by_cases hc : c = '/'
    · simp [hc]
    · simp only [if_neg hc]
      cases h : segs rest with
      | nil => simp
      | cons a as => simp

theorem segs_cons_sep (t : JStr) : segs ('/' :: t) = [] :: segs t := by
  rw [segs, if_pos rfl]

theorem segs_cons_ns {c : Char} (t : JStr) (hc : c ≠ '/') :
    segs (c :: t) =
      match segs t with
      | [] => [[c]]
      | s :: ss => (c :: s) :: ss := by
  rw [segs, if_neg hc]

theorem segs_append : ∀ x y : JStr, segs (x ++ '/' :: y) = segs x ++ segs y := by
  intro x y
  induction x with
  | nil => simp [segs]
  | cons c rest ih =>
    rw [List.cons_append]
    by_cases hc : c = '/'
    · subst hc
      rw [segs_cons_sep, segs_cons_sep, ih, List.cons_append]
    · rw [segs_cons_ns _ hc, segs_cons_ns _ hc, ih]
      cases h : segs rest with
      | nil => exact absurd h (segs_ne_nil rest)
      | cons a as => simp

theorem segs_sep_free : ∀ (s : JStr), ∀ e ∈ segs s, ∀ ch ∈ e, ch ≠ '/' := by
  intro s
  induction s with
  | nil => intro e he; simp [segs] at he; simp [he]
  | cons c rest ih =>
    intro e he
    unfold segs at he
    by_cases hc : c = '/'
    · rw [if_pos hc] at he
      rcases List.mem_cons.mp he with rfl | he'
      · simp
      · exact ih e he'
    · rw [if_neg hc] at he
      cases h : segs rest with
      | nil => exact absurd h (segs_ne_nil rest)
      | cons a as =>
        rw [h] at he
        rcases List.mem_cons.mp he with rfl | he'
        · intro ch hch
          rcases List.mem_cons.mp hch with rfl | hch'
          · exact hc
          · exact ih a (h ▸ List.mem_cons_self _ _) ch hch'
        · exact ih e (h ▸ List.mem_cons_of_mem _ he')

theorem step_nil (a : Bool) (st : List JStr) : step a st [] = st := by
  simp [step]

theorem step_dot (a : Bool) (st : List JStr) : step a st ['.'] = st := by
  simp [step]

theorem step_name (a : Bool) (st : List JStr) {n : JStr}
    (h1 : n ≠ []) (h2 : n ≠ ['.']) (h3 : n ≠ ['.', '.']) :
    step a st n = st ++ [n] := by
  unfold step
  rw [if_neg (by simp [h1, h2]), if_neg h3]

theorem fold_append_junk (a : Bool) (acc : List JStr) (l : List JStr) :
    List.foldl (step a) acc (l ++ [[]]) = List.foldl (step a) acc l := by
  rw [List.foldl_append]
  simp [step_nil]

theorem mem_step {a : Bool} {st : List JStr} {seg e : JStr}
    (h : e ∈ step a st seg) :
    e ∈ st ∨ (e = seg ∧ seg ≠ [] ∧ seg ≠ ['.'] ∧ seg ≠ ['.', '.']) ∨ e = ['.', '.'] := by
  unfold step at h
  by_cases h1 : seg = [] ∨ seg = ['.']
  · rw [if_pos h1] at h; exact Or.inl h
  · rw [if_neg h1] at h
    by_cases h2 : seg = ['.', '.']
    · rw [if_pos h2] at h
      by_cases h3 : st ≠ [] ∧ st.getLast? ≠ some ['.', '.']
      · rw [if_pos h3] at h
        exact Or.inl (List.dropLast_subset _ h)
      · rw [if_neg h3] at h
        by_cases h4 : a = true
        · rw [if_pos h4] at h
          rcases List.mem_append.mp h with h' | h'
          · exact Or.inl h'
          · exact Or.inr (Or.inr (List.mem_singleton.mp h'))
        · rw [if_neg h4] at h; exact Or.inl h
    · rw [if_neg h2] at h
      rcases List.mem_append.mp h with h' | h'
      · exact Or.inl h'
      · push_neg at h1
        exact Or.inr (Or.inl ⟨List.mem_singleton.mp h', h1.1, h1.2, h2⟩)

theorem fold_entries_ne {a : Bool} :
    ∀ (l : List JStr) (acc : List JStr),
      (∀ e ∈ acc, e ≠ [] ∧ e ≠ ['.']) →
      ∀ e ∈ List.foldl (step a) acc l, e ≠ [] ∧ e ≠ ['.'] := by
  intro l
  induction l with
  | nil => intro acc hacc e he; exact hacc e he
  | cons x xs ih =>
    intro acc hacc e he
    refine ih (step a acc x) ?_ e he
    intro e' he'
    rcases mem_step he' with h | ⟨rfl, h1, h2, _⟩ | rfl
    · exact hacc e' h
    · exact ⟨h1, h2⟩
    · exact ⟨by simp, by simp⟩

theorem fold_entries_sf {a : Bool} :
    ∀ (l : List JStr) (acc : List JStr),
      (∀ e ∈ acc, ∀ ch ∈ e, ch ≠ '/') →
      (∀ e ∈ l, ∀ ch ∈ e, ch ≠ '/') →
      ∀ e ∈ List.foldl (step a) acc l, ∀ ch ∈ e, ch ≠ '/' := by
  intro l
  induction l with
  | nil => intro acc hacc _ e he; exact hacc e he
  | cons x xs ih =>
    intro acc hacc hl e he
    refine ih (step a acc x) ?_ (fun e' he' => hl e' (List.mem_cons_of_mem _ he')) e he
    intro e' he'
    rcases mem_step he' with h | ⟨rfl, _, _, _⟩ | rfl
    · exact hacc e' h
    · exact hl e' (List.mem_cons_self _ _)
    · intro ch hch
      rcases List.mem_cons.mp hch with rfl | hch'
      · simp
      · simp at hch'; simp [hch']

theorem fold_false_no_dd :
    ∀ (l : List JStr) (acc : List JStr),
      (∀ e ∈ acc, e ≠ ['.', '.']) →
      ∀ e ∈ List.foldl (step false) acc l, e ≠ ['.', '.'] := by
  intro l
  induction l with
  | nil => intro acc hacc e he; exact hacc e he
  | cons x xs ih =>
    intro acc hacc e he
    refine ih (step false acc x) ?_ e he
    intro e' he'
    unfold step at he'
    by_cases h1 : x = [] ∨ x = ['.']
    · rw [if_pos h1] at he'; exact hacc e' he'
    · rw [if_neg h1] at he'
      by_cases h2 : x = ['.', '.']
      · rw [if_pos h2] at he'
        by_cases h3 : acc ≠ [] ∧ acc.getLast? ≠ some ['.', '.']
        · rw [if_pos h3] at he'
          exact hacc e' (List.dropLast_subset _ he')
        · rw [if_neg h3, if_neg (by simp)] at he'
          exact hacc e' he'
      · rw [if_neg h2] at he'
        rcases List.mem_append.mp he' with h' | h'
        · exact hacc e' h'
        · rw [List.mem_singleton.mp h']; exact h2

theorem foldl_step_names {a : Bool} :
    ∀ (l : List JStr) (acc : List JStr),
      (∀ e ∈ l, e ≠ [] ∧ e ≠ ['.'] ∧ e ≠ ['.', '.']) →
      List.foldl (step a) acc l = acc ++ l := by
  intro l
  induction l with
  | nil => intro acc _; simp
  | cons x xs ih =>
    intro acc hl
    obtain ⟨h1, h2, h3⟩ := hl x (List.mem_cons_self _ _)
    rw [List.foldl_cons, step_name a acc h1 h2 h3,
      ih _ (fun e he => hl e (List.mem_cons_of_mem _ he))]
    simp

/-- The master refolding lemma: re-running the segment loop over an
already-normalised segment stack, from any starting stack and with either
`allowAboveRoot` flag, is the same as running it over the original
segments. -/
theorem foldM (f : Bool) :
    ∀ (xs : List JStr) (st : List JStr),
      List.foldl (step f) st (List.foldl (step true) [] xs) =
        List.foldl (step f) st xs := by
  intro xs
  induction xs using List.reverseRecOn with
  | nil => intro st; rfl
  | append_singleton xs x ih =>
    intro st
    rw [List.foldl_append, List.foldl_append]
    simp only [List.foldl_cons, List.foldl_nil]
    set K := List.foldl (step true) [] xs with hK
    by_cases h1 : x = [] ∨ x = ['.']
    · have hs : step true K x = K := by
        rcases h1 with rfl | rfl
        · exact step_nil _ _
        · exact step_dot _ _
      have hs2 : step f (List.foldl (step f) st xs) x = List.foldl (step f) st xs := by
        rcases h1 with rfl | rfl
        · exact step_nil _ _
        · exact step_dot _ _
      rw [hs, hs2, ih]
    · by_cases h2 : x = ['.', '.']
      · subst h2
        by_cases h3 : K ≠ [] ∧ K.getLast? ≠ some ['.', '.']
        · -- pop case: K ends with a plain name n
          obtain ⟨hKne, hKlast⟩ := h3
          have hn : K.getLast? = some (K.getLast hKne) :=
            List.getLast?_eq_getLast K hKne
          set n := K.getLast hKne with hndef
          have hKsplit : K.dropLast ++ [n] = K := List.dropLast_append_getLast hKne
          have hne : n ≠ ['.', '.'] := fun hc => hKlast (by rw [hn, hc])
          have hmemK : n ∈ K := by
            rw [← hKsplit]; exact List.mem_append_right _ (List.mem_singleton.mpr rfl)
          have hnprop := fold_entries_ne (a := true) xs [] (by simp) n (hK ▸ hmemK)
          have hstep : step true K ['.', '.'] = K.dropLast := by
            unfold step
            rw [if_neg (by simp), if_pos rfl, if_pos ⟨hKne, hKlast⟩]
          have hfoldK : List.foldl (step f) st K =
              List.foldl (step f) st K.dropLast ++ [n] := by
            conv_lhs => rw [← hKsplit]
            rw [List.foldl_append]
            simp only [List.foldl_cons, List.foldl_nil]
            exact step_name f _ hnprop.1 hnprop.2 hne
          have hpop : step f (List.foldl (step f) st xs) ['.', '.'] =
              List.foldl (step f) st K.dropLast := by
            rw [← ih, hfoldK]
            unfold step
            rw [if_neg (by simp), if_pos rfl,
              if_pos ⟨by simp, by rw [List.getLast?_concat]; simp [hne]⟩]
            exact List.dropLast_concat
          rw [hstep, hpop]
        · -- accumulate case: ".." is appended
          have hstep : step true K ['.', '.'] = K ++ [['.', '.']] := by
            unfold step
            rw [if_neg (by simp), if_pos rfl, if_neg h3, if_pos rfl]
          rw [hstep, List.foldl_append]
          simp only [List.foldl_cons, List.foldl_nil]
          rw [ih]
      · push_neg at h1
        have hstep : step true K x = K ++ [x] := step_name true K h1.1 h1.2 h2
        rw [hstep, List.foldl_append]
        simp only [List.foldl_cons, List.foldl_nil]
        rw [ih]

theorem isAbs_cons (c : Char) (l : JStr) : isAbs (c :: l) = (c == '/') := rfl

theorem isAbs_append_left {s : JStr} (t : JStr) (hs : s ≠ []) :
    isAbs (s ++ t) = isAbs s := by
  cases s with
  | nil => exact absurd rfl hs
  | cons c l => rfl

theorem hasTrail_append_right (s : JStr) {t : JStr} (ht : t ≠ []) :
    hasTrail (s ++ t) = hasTrail t := by
  unfold hasTrail
  rw [List.getLast?_append_of_ne_nil s ht]

theorem normStack_eq (a : Bool) (l : List JStr) :
    normStack a l = List.foldl (step a) [] l := rfl

theorem segs_of_sf : ∀ (s : JStr), (∀ ch ∈ s, ch ≠ '/') → segs s = [s] := by
  intro s
  induction s with
  | nil => intro _; rfl
  | cons c rest ih =>
    intro h
    rw [segs_cons_ns _ (h c (List.mem_cons_self _ _)),
      ih (fun ch hch => h ch (List.mem_cons_of_mem _ hch))]

theorem renderStack_ne_nil : ∀ (K : List JStr), K ≠ [] → (∀ e ∈ K, e ≠ []) →
    renderStack K ≠ [] := by
  intro K hK he
  cases K with
  | nil => exact absurd rfl hK
  | cons s rest =>
    cases rest with
    | nil => exact he s (List.mem_cons_self _ _)
    | cons k rest' =>
      show s ++ '/' :: renderStack (k :: rest') ≠ []
      simp

theorem segs_renderStack : ∀ (K : List JStr), K ≠ [] →
    (∀ e ∈ K, ∀ ch ∈ e, ch ≠ '/') → segs (renderStack K) = K := by
  intro K
  induction K with
  | nil => intro h; exact absurd rfl h
  | cons s rest ih =>
    intro _ hsf
    cases rest with
    | nil => exact segs_of_sf s (hsf s (List.mem_cons_self _ _))
    | cons k rest' =>
      show segs (s ++ '/' :: renderStack (k :: rest')) = _
      rw [segs_append, segs_of_sf s (hsf s (List.mem_cons_self _ _)),
        ih (by simp) (fun e he => hsf e (List.mem_cons_of_mem _ he))]
      rfl

theorem isAbs_renderStack : ∀ (K : List JStr), K ≠ [] →
    (∀ e ∈ K, e ≠ [] ∧ ∀ ch ∈ e, ch ≠ '/') → isAbs (renderStack K) = false := by
  intro K hK he
  cases K with
  | nil => exact absurd rfl hK
  | cons s rest =>
    obtain ⟨hs, hsf⟩ := he s (List.mem_cons_self _ _)
    cases s with
    | nil => exact absurd rfl hs
    | cons c l =>
      have hc : c ≠ '/' := hsf c (List.mem_cons_self _ _)
      cases rest with
      | nil =>
        show isAbs (c :: l) = false
        rw [isAbs_cons]
        simp [hc]
      | cons k rest' =>
        show isAbs ((c :: l) ++ '/' :: renderStack (k :: rest')) = false
        rw [List.cons_append, isAbs_cons]
        simp [hc]

theorem hasTrail_renderStack : ∀ (K : List JStr), K ≠ [] →
    (∀ e ∈ K, e ≠ [] ∧ ∀ ch ∈ e, ch ≠ '/') → hasTrail (renderStack K) = false := by
  intro K
  induction K with
  | nil => intro h; exact absurd rfl h
  | cons s rest ih =>
    intro _ he
    obtain ⟨hs, hsf⟩ := he s (List.mem_cons_self _ _)
    cases rest with
    | nil =>
      show hasTrail s = false
      unfold hasTrail
      cases hg : s.getLast? with
      | none => rfl
      | some c =>
        rw [List.getLast?_eq_getLast s hs] at hg
        have hmem : c ∈ s := (Option.some_inj.mp hg) ▸ List.getLast_mem hs
        simp [hsf c hmem]
    | cons k rest' =>
      show hasTrail (s ++ '/' :: renderStack (k :: rest')) = false
      have hrne : renderStack (k :: rest') ≠ [] :=
        renderStack_ne_nil _ (by simp)
          (fun e hee => (he e (List.mem_cons_of_mem _ hee)).1)
      have h1 : hasTrail (s ++ '/' :: renderStack (k :: rest')) =
          hasTrail (renderStack (k :: rest')) := by
        unfold hasTrail
        rw [List.getLast?_append_of_ne_nil s (by simp),
          show ('/' :: renderStack (k :: rest')) = ['/'] ++ renderStack (k :: rest') from rfl,
          List.getLast?_append_of_ne_nil ['/'] hrne]
      rw [h1]
      exact ih (by simp) (fun e hee => he e (List.mem_cons_of_mem _ hee))

theorem normStack_entries (a : Bool) (w : JStr) :
    ∀ e ∈ normStack a (segs w), (e ≠ [] ∧ e ≠ ['.']) ∧ ∀ ch ∈ e, ch ≠ '/' :=
  fun e he =>
    ⟨fold_entries_ne (segs w) [] (by simp) e he,
     fold_entries_sf (segs w) [] (by simp) (segs_sep_free w) e he⟩

theorem refold_rel (f : Bool) (st : List JStr) (w : JStr) (hw : isAbs w = false) :
    List.foldl (step f) st (segs (jsNormalize w)) = List.foldl (step f) st (segs w) := by
  by_cases hnil : w = []
  · subst hnil
    show List.foldl (step f) st (segs ['.']) = List.foldl (step f) st (segs [])
    rw [show segs ['.'] = [['.']] from rfl, show segs ([] : JStr) = [[]] from rfl]
    simp [step_dot, step_nil]
  · unfold jsNormalize
    rw [if_neg hnil]
    simp only [hw, Bool.not_false]
    set K := normStack true (segs w) with hKdef
    have hM : List.foldl (step f) st K = List.foldl (step f) st (segs w) :=
      foldM f (segs w) st
    have hent := normStack_entries true w
    rw [← hKdef] at hent
    by_cases hK : K = []
    · rw [hK]
      show List.foldl (step f) st
        (segs (if renderStack [] = [] then _ else _)) = _
      rw [if_pos (show renderStack ([] : List JStr) = [] from rfl)]
      rw [← hM, hK]
      simp only [List.foldl_nil]
      cases hasTrail w with
      | false =>
        rw [if_neg (by simp), if_neg (by simp)]
        rw [show segs ['.'] = [['.']] from rfl]
        simp [step_dot]
      | true =>
        rw [if_neg (by simp), if_pos rfl]
        rw [show segs ['.', '/'] = [['.'], []] from rfl]
        simp [step_dot, step_nil]
    · have hbody : renderStack K ≠ [] :=
        renderStack_ne_nil K hK (fun e he => (hent e he).1.1)
      rw [if_neg hbody]
      have hsegsK : segs (renderStack K) = K :=
        segs_renderStack K hK (fun e he => (hent e he).2)
      rw [if_neg (by simp)]
      simp only [List.nil_append]
      cases hasTrail w with
      | false =>
        rw [if_neg (by simp), List.append_nil, hsegsK, hM]
      | true =>
        rw [if_pos rfl]
        rw [show renderStack K ++ ['/'] = renderStack K ++ '/' :: [] from rfl,
          segs_append, hsegsK, show segs ([] : JStr) = [[]] from rfl,
          fold_append_junk, hM]

theorem refold_abs (w : JStr) (hw : isAbs w = true) :
    List.foldl (step false) [] (segs (jsNormalize w)) =
      List.foldl (step false) [] (segs w) := by
  have hnil : w ≠ [] := by intro h; subst h; simp [isAbs] at hw
  unfold jsNormalize
  rw [if_neg hnil]
  simp only [hw, Bool.not_true]
  set K := normStack false (segs w) with hKdef
  have hent := normStack_entries false w
  rw [← hKdef] at hent
  have hdd : ∀ e ∈ K, e ≠ ['.', '.'] :=
    fun e he => fold_false_no_dd (segs w) [] (by simp) e he
  have hnames : List.foldl (step false) [] K = K := by
    rw [show List.foldl (step false) [] K = [] ++ K from
      foldl_step_names K []
        (fun e he => ⟨(hent e he).1.1, (hent e he).1.2, hdd e he⟩)]
    simp
  by_cases hK : K = []
  · rw [hK]
    show List.foldl (step false) []
      (segs (if renderStack [] = [] then _ else _)) = _
    rw [if_pos (show renderStack ([] : List JStr) = [] from rfl), if_pos (by trivial)]
    rw [show segs ['/'] = [[], []] from rfl]
    simp only [List.foldl_cons, List.foldl_nil, step_nil]
    exact (hKdef ▸ hK).symm
  · have hbody : renderStack K ≠ [] :=
      renderStack_ne_nil K hK (fun e he => (hent e he).1.1)
    rw [if_neg hbody, if_pos (by trivial)]
    have hsegsK : segs (renderStack K) = K :=
      segs_renderStack K hK (fun e he => (hent e he).2)
    cases hasTrail w with
    | false =>
      rw [if_neg (by simp), List.append_nil,
        show ['/'] ++ renderStack K = '/' :: renderStack K from rfl,
        segs_cons_sep, List.foldl_cons, step_nil, hsegsK, hnames]
      exact hKdef
    | true =>
      rw [if_pos rfl, List.append_assoc,
        show ['/'] ++ (renderStack K ++ ['/']) = '/' :: (renderStack K ++ '/' :: []) from rfl,
        segs_cons_sep, List.foldl_cons, step_nil, segs_append, hsegsK,
        show segs ([] : JStr) = [[]] from rfl, fold_append_junk, hnames]
      exact hKdef

theorem jsNormalize_shape (w : JStr) (hnil : w ≠ []) :
    jsNormalize w =
      (if renderStack (normStack (!isAbs w) (segs w)) = [] then
        if isAbs w then ['/'] else if hasTrail w then ['.', '/'] else ['.']
      else (if isAbs w then ['/'] else []) ++
        renderStack (normStack (!isAbs w) (segs w)) ++
        (if hasTrail w then ['/'] else [])) := by
  rw [jsNormalize, if_neg hnil]

theorem isAbs_normalize (w : JStr) : isAbs (jsNormalize w) = isAbs w := by
  by_cases hnil : w = []
  · subst hnil; rfl
  · rw [jsNormalize_shape w hnil]
    have hent := normStack_entries (!isAbs w) w
    by_cases hK : renderStack (normStack (!isAbs w) (segs w)) = []
    · rw [if_pos hK]
      cases ha : isAbs w with
      | true => rw [if_pos rfl]; rfl
      | false =>
        rw [if_neg (by simp)]
        cases hasTrail w with
        | true => rw [if_pos rfl]; rfl
        | false => rw [if_neg (by simp)]; rfl
    · rw [if_neg hK]
      cases ha : isAbs w with
      | true =>
        rw [if_pos rfl, isAbs_append_left _ (by simp),
          isAbs_append_left _ (by simp)]
        rfl
      | false =>
        rw [ha] at hK hent
        rw [if_neg (by simp), List.nil_append,
          isAbs_append_left _ hK]
        have hKne : normStack (!false) (segs w) ≠ [] := by
          intro h; rw [h] at hK; exact hK rfl
        exact isAbs_renderStack _ hKne
          (fun e he => ⟨(hent e he).1.1, (hent e he).2⟩)

theorem jsNormalize_ne_nil (w : JStr) : jsNormalize w ≠ [] := by
  by_cases hnil : w = []
  · subst hnil; simp [jsNormalize]
  · rw [jsNormalize_shape w hnil]
    by_cases hK : renderStack (normStack (!isAbs w) (segs w)) = []
    · rw [if_pos hK]
      cases isAbs w with
      | true => simp
      | false => cases hasTrail w <;> simp
    · rw [if_neg hK]
      simp [hK]

theorem trail_normalize_body (w : JStr) (hnil : w ≠ [])
    (hbody : renderStack (normStack (!isAbs w) (segs w)) ≠ []) :
    hasTrail (jsNormalize w) = hasTrail w := by
  rw [jsNormalize_shape w hnil, if_neg hbody]
  have hent := normStack_entries (!isAbs w) w
  have hKne : normStack (!isAbs w) (segs w) ≠ [] := by
    intro h; rw [h] at hbody; exact hbody rfl
  cases ht : hasTrail w with
  | true =>
    rw [if_pos rfl, hasTrail_append_right _ (show ['/'] ≠ [] by simp)]
    rfl
  | false =>
    rw [if_neg Bool.false_ne_true, List.append_nil,
      hasTrail_append_right _ hbody]
    exact hasTrail_renderStack _ hKne
      (fun e he => ⟨(hent e he).1.1, (hent e he).2⟩)

theorem trail_normalize_rel (w : JStr) (ha : isAbs w = false) (hnil : w ≠ []) :
    hasTrail (jsNormalize w) = hasTrail w := by
  by_cases hK : renderStack (normStack (!isAbs w) (segs w)) = []
  · rw [jsNormalize_shape w hnil, if_pos hK, ha]
    rw [if_neg (by simp)]
    cases ht : hasTrail w with
    | true => rw [if_pos rfl]; rfl
    | false => rw [if_neg (by simp)]; rfl
  · exact trail_normalize_body w hnil hK

theorem jsNormalize_congr (x y : JStr) (hx : x ≠ []) (hy : y ≠ [])
    (ha : isAbs x = isAbs y) (ht : hasTrail x = hasTrail y)
    (hs : normStack (!isAbs y) (segs x) = normStack (!isAbs y) (segs y)) :
    jsNormalize x = jsNormalize y := by
  rw [jsNormalize_shape x hx, jsNormalize_shape y hy, ha, ht, hs]

theorem jsNormalize_idem (w : JStr) : jsNormalize (jsNormalize w) = jsNormalize w := by
  by_cases hnil : w = []
  · subst hnil; decide
  · cases ha : isAbs w with
    | false =>
      refine jsNormalize_congr _ _ (jsNormalize_ne_nil w) hnil
        (by rw [isAbs_normalize]) (trail_normalize_rel w ha hnil) ?_
      rw [ha]
      show List.foldl (step true) [] (segs (jsNormalize w)) =
        List.foldl (step true) [] (segs w)
      exact refold_rel true [] w ha
    | true =>
      by_cases hK : renderStack (normStack (!isAbs w) (segs w)) = []
      · have hform : jsNormalize w = ['/'] := by
          rw [jsNormalize_shape w hnil, if_pos hK, ha, if_pos rfl]
        rw [hform]; decide
      · refine jsNormalize_congr _ _ (jsNormalize_ne_nil w) hnil
          (by rw [isAbs_normalize]) (trail_normalize_body w hnil hK) ?_
        rw [ha]
        show List.foldl (step false) [] (segs (jsNormalize w)) =
          List.foldl (step false) [] (segs w)
        exact refold_abs w ha

theorem jsJoin_nil_left {b : JStr} (hb : b ≠ []) : jsJoin [] b = jsNormalize b := by
  rw [jsJoin, if_neg (by simp [hb]), if_pos rfl]

theorem jsJoin_nil_right {a : JStr} (ha : a ≠ []) : jsJoin a [] = jsNormalize a := by
  rw [jsJoin, if_neg (by simp [ha]), if_neg ha, if_pos rfl]

theorem jsJoin_both {a b : JStr} (ha : a ≠ []) (hb : b ≠ []) :
    jsJoin a b = jsNormalize (a ++ '/' :: b) := by
  rw [jsJoin, if_neg (by simp [ha]), if_neg ha, if_neg hb]

theorem join_ne_nil (a b : JStr) : jsJoin a b ≠ [] := by
  by_cases ha : a = []
  · by_cases hb : b = []
    · subst ha; subst hb; decide
    · subst ha; rw [jsJoin_nil_left hb]; exact jsNormalize_ne_nil b
  · by_cases hb : b = []
    · subst hb; rw [jsJoin_nil_right ha]; exact jsNormalize_ne_nil a
    · rw [jsJoin_both ha hb]; exact jsNormalize_ne_nil _

theorem jsNormalize_join (x y : JStr) : jsNormalize (jsJoin x y) = jsJoin x y := by
  by_cases hx : x = []
  · by_cases hy : y = []
    · subst hx; subst hy; decide
    · subst hx; rw [jsJoin_nil_left hy]; exact jsNormalize_idem y
  · by_cases hy : y = []
    · subst hy; rw [jsJoin_nil_right hx]; exact jsNormalize_idem x
    · rw [jsJoin_both hx hy]; exact jsNormalize_idem _

theorem join_norm_left {u : JStr} (v : JStr) (hu : u ≠ []) :
    jsJoin (jsNormalize u) v = jsJoin u v := by
  by_cases hv : v = []
  · subst hv
    rw [jsJoin_nil_right (jsNormalize_ne_nil u), jsJoin_nil_right hu]
    exact jsNormalize_idem u
  · rw [jsJoin_both (jsNormalize_ne_nil u) hv, jsJoin_both hu hv]
    refine jsNormalize_congr _ _ (by simp [jsNormalize_ne_nil u]) (by simp [hu]) ?_ ?_ ?_
    · rw [isAbs_append_left _ (jsNormalize_ne_nil u), isAbs_append_left _ hu,
        isAbs_normalize]
    · rw [hasTrail_append_right _ (show '/' :: v ≠ [] by simp),
        hasTrail_append_right _ (show '/' :: v ≠ [] by simp)]
    · rw [isAbs_append_left _ hu]
      show List.foldl (step (!isAbs u)) [] (segs (jsNormalize u ++ '/' :: v)) =
        List.foldl (step (!isAbs u)) [] (segs (u ++ '/' :: v))
      rw [segs_append, segs_append, List.foldl_append, List.foldl_append]
      congr 1
      cases ha : isAbs u with
      | false => exact refold_rel _ [] u ha
      | true => exact refold_abs u ha

theorem join_norm_right (u : JStr) {v : JStr} (hv : v ≠ []) (hva : isAbs v = false) :
    jsJoin u (jsNormalize v) = jsJoin u v := by
  by_cases hu : u = []
  · subst hu
    rw [jsJoin_nil_left (jsNormalize_ne_nil v), jsJoin_nil_left hv]
    exact jsNormalize_idem v
  · rw [jsJoin_both hu (jsNormalize_ne_nil v), jsJoin_both hu hv]
    refine jsNormalize_congr _ _ (by simp [hu]) (by simp [hu]) ?_ ?_ ?_
    · rw [isAbs_append_left _ hu, isAbs_append_left _ hu]
    · rw [hasTrail_append_right _ (show '/' :: jsNormalize v ≠ [] by simp),
        hasTrail_append_right _ (show '/' :: v ≠ [] by simp),
        show ('/' :: jsNormalize v) = ['/'] ++ jsNormalize v from rfl,
        show ('/' :: v) = ['/'] ++ v from rfl,
        hasTrail_append_right _ (jsNormalize_ne_nil v),
        hasTrail_append_right _ hv]
      exact trail_normalize_rel v hva hv
    · rw [isAbs_append_left _ hu]
      rw [segs_append, segs_append, normStack_eq, normStack_eq,
        List.foldl_append, List.foldl_append]
      exact refold_rel _ _ v hva

/-- C8 counterexample: platform join is NOT associative for all path
triples — an absolute middle operand (`("x","/","..")`) or empty
trailing operands (`("x/","","")`) break it. -/
theorem C8_counterexample :
    jsJoin (jsJoin (str "x") (str "/")) (str "..") ≠
      jsJoin (str "x") (jsJoin (str "/") (str "..")) ∧
    jsJoin (jsJoin (str "x/") (str "")) (str "") ≠
      jsJoin (str "x/") (jsJoin (str "") (str "")) := by decide

/-- C8 amended: the composition `join` implemented by `append`/`postfix`
over the platform join primitive is associative whenever the middle
operand is a non-empty relative path (does not start with a separator);
the outer operands are unrestricted. -/
theorem C8_join_associative_relative (a b c : JStr)
    (hb : b ≠ []) (hab : isAbs b = false) :
    jsJoin (jsJoin a b) c = jsJoin a (jsJoin b c) := by
  by_cases hc : c = []
  · subst hc
    rw [jsJoin_nil_right (join_ne_nil a b), jsNormalize_join,
      jsJoin_nil_right hb, join_norm_right a hb hab]
  · by_cases ha : a = []
    · subst ha
      rw [jsJoin_nil_left hb, join_norm_left c hb,
        jsJoin_nil_left (join_ne_nil b c), jsNormalize_join]
    · have h1 : jsJoin (jsJoin a b) c = jsNormalize ((a ++ '/' :: b) ++ '/' :: c) := by
        rw [jsJoin_both ha hb, join_norm_left c (by simp [ha]),
          jsJoin_both (by simp [ha]) hc]
      have h2 : jsJoin a (jsJoin b c) = jsNormalize (a ++ '/' :: (b ++ '/' :: c)) := by
        rw [jsJoin_both hb hc,
          join_norm_right a (by simp [hb]) (by rw [isAbs_append_left _ hb]; exact hab),
          jsJoin_both ha (by simp [hb])]
      rw [h1, h2, List.append_assoc, List.cons_append]

/-- C8 witness: a concrete associative instance with dot-navigation in the
middle operand. -/
theorem C8_witness :
    jsJoin (jsJoin (str "/r") (str "d/../e")) (str "f") =
      jsJoin (str "/r") (jsJoin (str "d/../e") (str "f")) :=
  C8_join_associative_relative (str "/r") (str "d/../e") (str "f")
    (by decide) (by decide)

theorem renderStack_append_one (st : List JStr) (n : JStr) (hst : st ≠ []) :
    renderStack (st ++ [n]) = renderStack st ++ '/' :: n := by
  induction st with
  | nil => exact absurd rfl hst
  | cons s rest ih =>
    cases rest with
    | nil => rfl
    | cons k r =>
      show s ++ '/' :: renderStack ((k :: r) ++ [n]) = (s ++ '/' :: renderStack (k :: r)) ++ '/' :: n
      rw [ih (by simp)]
      simp

theorem stackOf_nil (cwd : JStr) :
    stackOf cwd [] = normStack false (segs cwd ++ [[]]) := by
  unfold stackOf
  rw [if_neg (by simp [isAbs])]
  rfl

theorem resolve_render (cwd w : JStr) (hc : isAbs cwd = true) :
    jsResolve cwd w = '/' :: renderStack (stackOf cwd w) := by
  by_cases hw : w = []
  · subst hw
    unfold jsResolve
    simp only [if_pos rfl, ne_eq, not_true_eq_false, false_and, if_false, hc,
      if_true, eq_self_iff_true, Bool.not_true]
    rw [stackOf_nil, show cwd ++ ['/'] = cwd ++ '/' :: [] from rfl, segs_append]
    rfl
  · by_cases hwa : isAbs w = true
    · unfold jsResolve
      rw [if_neg hw]
      simp only [hwa, ne_eq, hw, not_false_eq_true, true_and, if_true,
        eq_self_iff_true, Bool.not_true]
      unfold stackOf
      rw [if_pos hwa]
      rw [show w ++ ['/'] = w ++ '/' :: [] from rfl, segs_append,
        show segs ([] : JStr) = [[]] from rfl]
      unfold normStack
      rw [fold_append_junk]
    · unfold jsResolve
      rw [if_neg hw]
      simp only [hwa, ne_eq, hw, not_false_eq_true, true_and, Bool.false_eq_true,
        if_false, hc, if_true, eq_self_iff_true, Bool.not_true]
      unfold stackOf
      rw [if_neg (by simp [hwa])]
      rw [show w ++ ['/'] = w ++ '/' :: [] from rfl, segs_append, segs_append,
        show segs ([] : JStr) = [[]] from rfl]
      unfold normStack
      rw [← List.append_assoc, fold_append_junk]

theorem isAbs_validName {n : JStr} (hn : validName n) : isAbs n = false := by
  obtain ⟨hn1, _, _, hnsf⟩ := hn
  cases n with
  | nil => exact absurd rfl hn1
  | cons c l =>
    rw [isAbs_cons]
    simp [hnsf c (List.mem_cons_self _ _)]

theorem hasTrail_validName {n : JStr} (hn : validName n) : hasTrail n = false := by
  obtain ⟨hn1, _, _, hnsf⟩ := hn
  unfold hasTrail
  rw [List.getLast?_eq_getLast n hn1]
  simp [hnsf _ (List.getLast_mem hn1)]

theorem normalize_validName {n : JStr} (hn : validName n) : jsNormalize n = n := by
  have hn1 := hn.1
  have hn2 := hn.2.1
  have hn3 := hn.2.2.1
  have hnsf := hn.2.2.2
  rw [jsNormalize_shape n hn1, isAbs_validName hn, hasTrail_validName hn]
  have hstack : normStack (!false) (segs n) = [n] := by
    rw [segs_of_sf n hnsf]
    show List.foldl (step true) [] [n] = [n]
    simp only [List.foldl_cons, List.foldl_nil]
    rw [step_name true [] hn1 hn2 hn3]
    rfl
  rw [hstack, show renderStack [n] = n from rfl, if_neg hn1]
  simp

theorem stackOf_join_name (cwd r n : JStr) (hn : validName n) :
    stackOf cwd (jsJoin r n) = stackOf cwd r ++ [n] := by
  obtain ⟨hn1, hn2, hn3, hnsf⟩ := hn
  by_cases hr : r = []
  · subst hr
    rw [jsJoin_nil_left hn1, normalize_validName ⟨hn1, hn2, hn3, hnsf⟩]
    unfold stackOf
    rw [if_neg (by rw [isAbs_validName ⟨hn1, hn2, hn3, hnsf⟩]; simp),
      if_neg (by simp [isAbs])]
    rw [segs_of_sf n hnsf, show segs ([] : JStr) = [[]] from rfl]
    unfold normStack
    rw [List.foldl_append, List.foldl_append]
    simp only [List.foldl_cons, List.foldl_nil]
    rw [step_nil, step_name _ _ hn1 hn2 hn3]
  · rw [jsJoin_both hr hn1]
    have hzabs : isAbs (r ++ '/' :: n) = isAbs r := isAbs_append_left _ hr
    by_cases hra : isAbs r = true
    · have habs : isAbs (jsNormalize (r ++ '/' :: n)) = true := by
        rw [isAbs_normalize, hzabs]; exact hra
      unfold stackOf
      rw [if_pos habs, if_pos hra]
      unfold normStack
      rw [refold_abs _ (by rw [hzabs]; exact hra)]
      rw [segs_append, segs_of_sf n hnsf, List.foldl_append]
      simp only [List.foldl_cons, List.foldl_nil]
      rw [step_name _ _ hn1 hn2 hn3]
    · have hra' : isAbs r = false := by
        cases h : isAbs r
        · rfl
        · exact absurd h hra
      have habs : isAbs (jsNormalize (r ++ '/' :: n)) = false := by
        rw [isAbs_normalize, hzabs]; exact hra'
      unfold stackOf
      rw [if_neg (by rw [habs]; simp), if_neg (by rw [hra']; simp)]
      unfold normStack
      rw [List.foldl_append, refold_rel _ _ _ (by rw [hzabs]; exact hra')]
      rw [segs_append, segs_of_sf n hnsf, List.foldl_append, List.foldl_append]
      simp only [List.foldl_cons, List.foldl_nil]
      rw [step_name _ _ hn1 hn2 hn3]

theorem stackOf_entries (cwd s : JStr) :
    ∀ e ∈ stackOf cwd s, e ≠ [] := by
  unfold stackOf
  by_cases h : isAbs s = true
  · rw [if_pos h]
    intro e he
    exact (fold_entries_ne _ [] (by simp) e he).1
  · rw [if_neg h]
    intro e he
    exact (fold_entries_ne _ [] (by simp) e he).1

theorem resolve_eq_root_iff (cwd w : JStr) (hc : isAbs cwd = true) :
    jsResolve cwd w = str "/" ↔ stackOf cwd w = [] := by
  rw [resolve_render cwd w hc]
  constructor
  · intro h
    have h2 : renderStack (stackOf cwd w) = [] := by
      have h3 := congrArg List.tail h
      simpa using h3
    by_contra hne
    exact (renderStack_ne_nil _ hne (stackOf_entries cwd w)) h2
  · intro h
    rw [h]
    rfl

/-- C3 counterexample: `/a` IS a strict descendant of the root `/` (and is
literally the join of `/` with the single segment `a`), yet
`inside` returns `false`, because the root's absolute form already ends
with the separator and the code tests for `iAbs + '/'`. -/
theorem C3_counterexample :
    specStrictDescendant (str "/w") (str "/a") (str "/") ∧
    str "/a" = jsJoin (str "/") (str "a") ∧
    Path.inside (str "/w") (str "/a") (str "/") = false := by decide

/-- C3 amended: `inside` tests that the absolute form of `this` starts
with the absolute form of `other` followed by one more separator.
Consequently `p.inside(p)` is false for every path, and for a direct child
`c = join(p, name)` (a plain name segment), `c.inside(p)` is true provided
`p`'s absolute form is not the filesystem root `/`. -/
theorem C3_inside_strict_descendant :
    (∀ cwd p : JStr, Path.inside cwd p p = false) ∧
    (∀ cwd p n : JStr, isAbs cwd = true → validName n →
      jsResolve cwd p ≠ str "/" →
      Path.inside cwd (jsJoin p n) p = true) := by
  constructor
  · intro cwd p
    show ((jsResolve cwd p ++ ['/']).isPrefixOf (jsResolve cwd p) ||
      (jsResolve cwd p ++ ['\\']).isPrefixOf (jsResolve cwd p)) = false
    have h1 : ∀ c : Char, (jsResolve cwd p ++ [c]).isPrefixOf (jsResolve cwd p) = false := by
      intro c
      cases h : (jsResolve cwd p ++ [c]).isPrefixOf (jsResolve cwd p) with
      | false => rfl
      | true =>
        exfalso
        have h2 : (jsResolve cwd p ++ [c]) <+: jsResolve cwd p :=
          List.isPrefixOf_iff_prefix.mp h
        have h3 := h2.length_le
        simp at h3
    rw [h1 '/', h1 '\\']
    rfl
  · intro cwd p n hc hn hroot
    have hst : stackOf cwd p ≠ [] :=
      fun h => hroot ((resolve_eq_root_iff cwd p hc).mpr h)
    show ((jsResolve cwd p ++ ['/']).isPrefixOf (jsResolve cwd (jsJoin p n)) ||
      (jsResolve cwd p ++ ['\\']).isPrefixOf (jsResolve cwd (jsJoin p n))) = true
    rw [resolve_render cwd (jsJoin p n) hc, resolve_render cwd p hc,
      stackOf_join_name cwd p n hn, renderStack_append_one _ _ hst]
    have hpre : (('/' :: renderStack (stackOf cwd p)) ++ ['/']).isPrefixOf
        ('/' :: (renderStack (stackOf cwd p) ++ '/' :: n)) = true := by
      refine List.isPrefixOf_iff_prefix.mpr ?_
      refine ⟨n, ?_⟩
      simp
    rw [hpre, Bool.true_or]

/-- C3 witness: `/a/b` is inside `/a`. -/
theorem C3_witness :
    Path.inside (str "/w") (jsJoin (str "/a") (str "b")) (str "/a") = true :=
  C3_inside_strict_descendant.2 (str "/w") (str "/a") (str "b")
    (by decide) (by decide) (by decide)

theorem statAll_ok_length {S : Storage} {cwd : JStr} :
    ∀ {cs : List JStr} {ss : List NStat},
      FS.statAll S cwd cs = .ok ss → ss.length = cs.length := by
  intro cs
  induction cs with
  | nil => intro ss h; simp only [FS.statAll] at h; cases h; rfl
  | cons c cs ih =>
    intro ss h
    simp only [FS.statAll] at h
    split at h
    · cases h
    · split at h
      · cases h
      · rename_i s hs ss' hss
        cases h
        simp [ih hss]

theorem ofList_ne_nil {α : Type} {l : List (TreeNode α)} (hl : l ≠ []) :
    Forest.ofList l ≠ Forest.nil := by
  cases l with
  | nil => exact absurd rfl hl
  | cons t ts => simp [Forest.ofList]

theorem treeInv_child {α : Type} {p : α} {d : Bool} {c : Children α}
    {t' : TreeNode α} (h : TreeInv (TreeNode.mk p d c)) (ht : t' ∈ childList c) :
    TreeInv t' :=
  fun n hn => h n (mem_nodes_trans ht hn)

theorem flatten_length_size :
    ∀ t : TreeNode JStr, TreeInv t → t.flatten.length = t.size := by
  intro t
  induction t using TreeNode.nodeInd with
  | ind p d c ih =>
    intro hinv
    cases c with
    | none =>
      rw [flatten_none, size_mk]
      simp [childList]
    | some f =>
      have hd : d = true := by
        by_contra hdf
        have h1 := hinv (TreeNode.mk p d (.some f)) (self_mem_nodes _)
        have h2 := h1 (by cases d; rfl; exact absurd rfl hdf)
        cases h2
      subst hd
      cases f with
      | nil =>
        rw [flatten_emptyc, size_mk]
        simp [childList, Forest.toList]
      | cons u f' =>
        rw [flatten_dir p _ (by simp), size_mk]
        simp only [childList, List.length_cons, List.length_flatten, List.map_map]
        have hmap : List.map (List.length ∘ TreeNode.flatten) (Forest.cons u f').toList =
            List.map TreeNode.size (Forest.cons u f').toList := by
          refine List.map_congr_left ?_
          intro x hx
          have hx' : x ∈ childList (Children.some (Forest.cons u f')) := by
            simpa [childList] using hx
          have := ih x hx' (treeInv_child hinv hx')
          simpa [Function.comp] using this
        rw [hmap]
        omega

theorem resolveAll_names {g : JStr × NStat → Except JStr (TreeNode JStr)} {p : JStr} :
    ∀ (names : List JStr) (stats : List NStat) (childNodes : List (TreeNode JStr)),
      stats.length = names.length →
      exceptMapList g ((names.map (fun n => jsJoin p n)).zip stats) = .ok childNodes →
      List.Forall₂ (fun n t' => ∃ s : NStat, g (jsJoin p n, s) = .ok t') names childNodes := by
  intro names
  induction names with
  | nil =>
    intro stats childNodes _ h
    simp only [List.map_nil, List.zip_nil_left, exceptMapList] at h
    cases h
    exact List.Forall₂.nil
  | cons n ns ih =>
    intro stats childNodes hlen h
    cases stats with
    | nil => simp at hlen
    | cons s ss =>
      simp only [List.map_cons, List.zip_cons_cons, exceptMapList] at h
      split at h
      · cases h
      · rename_i t' hg
        split at h
        · cases h
        · rename_i ts hts
          cases h
          exact List.Forall₂.cons ⟨s, hg⟩ (ih ss ts (by simpa using hlen) hts)

theorem mem_flatten_blocks {base : List JStr} :
    ∀ {ns : List JStr} {bls : List (List (List JStr))},
      List.Forall₂ (fun n bl =>
        (∀ x ∈ bl, ∃ l', x = base ++ n :: l') ∧ bl.Nodup) ns bls →
      ∀ x ∈ bls.flatten, ∃ m ∈ ns, ∃ l', x = base ++ m :: l' := by
  intro ns bls hf
  induction hf with
  | nil => intro x hx; simp at hx
  | cons h1 htail ih =>
    rename_i n bl ns' bls'
    intro x hx
    rw [List.flatten_cons] at hx
    rcases List.mem_append.mp hx with hx' | hx'
    · obtain ⟨l', hl⟩ := h1.1 x hx'
      exact ⟨n, List.mem_cons_self _ _, l', hl⟩
    · obtain ⟨m, hm, l', hl⟩ := ih x hx'
      exact ⟨m, List.mem_cons_of_mem _ hm, l', hl⟩

theorem nodup_stack_blocks (base : List JStr) :
    ∀ {ns : List JStr} {bls : List (List (List JStr))},
      List.Forall₂ (fun n bl =>
        (∀ x ∈ bl, ∃ l', x = base ++ n :: l') ∧ bl.Nodup) ns bls →
      ns.Nodup → bls.flatten.Nodup := by
  intro ns bls hf
  induction hf with
  | nil => intro _; simp
  | cons h1 htail ih =>
    rename_i n bl ns' bls'
    intro hnd
    rw [List.flatten_cons, List.nodup_append]
    obtain ⟨hn_notin, hns'⟩ := List.nodup_cons.mp hnd
    refine ⟨h1.2, ih hns', ?_⟩
    intro x hx1 hx2
    obtain ⟨l1, hl1⟩ := h1.1 x hx1
    obtain ⟨m, hm, l2, hl2⟩ := mem_flatten_blocks htail x hx2
    rw [hl1] at hl2
    have := List.append_cancel_left hl2
    cases this
    exact hn_notin hm

theorem forall₂_stack_shape {S : Storage} {cwd p : JStr} {fuel : Nat}
    (ihfuel : ∀ (p' : JStr) (d : Bool) (t : TreeNode JStr),
      FS.resolveChildren S cwd fuel (.mk p' d .none) = .ok t →
      ∃ rest, t.flatten = p' :: rest ∧
        (∀ q ∈ rest, ∃ l, stackOf cwd q = stackOf cwd p' ++ l ∧ l ≠ []) ∧
        (t.flatten.map (stackOf cwd)).Nodup) :
    ∀ {ns : List JStr} {cns : List (TreeNode JStr)},
      List.Forall₂ (fun n t' => ∃ s : NStat,
        FS.resolveChildren S cwd fuel (.mk (jsJoin p n) s.isDirectory .none) = .ok t') ns cns →
      (∀ n ∈ ns, validName n) →
      List.Forall₂ (fun n t' =>
        (∀ x ∈ t'.flatten.map (stackOf cwd), ∃ l', x = stackOf cwd p ++ n :: l') ∧
        (t'.flatten.map (stackOf cwd)).Nodup) ns cns := by
  intro ns cns hf
  induction hf with
  | nil => intro _; exact List.Forall₂.nil
  | cons h1 htail ih =>
    rename_i n t' ns' cns'
    intro hval
    obtain ⟨s, hres⟩ := h1
    obtain ⟨rest', hfl, hext, hnd⟩ := ihfuel _ _ _ hres
    have hvn := hval n (List.mem_cons_self _ _)
    have hsj : stackOf cwd (jsJoin p n) = stackOf cwd p ++ [n] :=
      stackOf_join_name cwd p n hvn
    refine List.Forall₂.cons ⟨?_, hnd⟩ (ih (fun m hm => hval m (List.mem_cons_of_mem _ hm)))
    intro x hx
    obtain ⟨q, hq, rfl⟩ := List.mem_map.mp hx
    rw [hfl] at hq
    rcases List.mem_cons.mp hq with rfl | hq'
    · exact ⟨[], by rw [hsj]⟩
    · obtain ⟨l, hl, _⟩ := hext q hq'
      exact ⟨l, by rw [hl, hsj]; simp⟩

theorem resolveNodup :
    ∀ (fuel : Nat) (S : Storage) (cwd : JStr), isAbs cwd = true → GoodStorage S →
      ∀ (p : JStr) (d : Bool) (t : TreeNode JStr),
        FS.resolveChildren S cwd fuel (.mk p d .none) = .ok t →
        ∃ rest, t.flatten = p :: rest ∧
          (∀ q ∈ rest, ∃ l, stackOf cwd q = stackOf cwd p ++ l ∧ l ≠ []) ∧
          (t.flatten.map (stackOf cwd)).Nodup := by
  intro fuel
  induction fuel with
  | zero => intro S cwd _ _ p d t h; rw [rc_zero] at h; cases h
  | succ fuel ih =>
    intro S cwd hcwd hGS p d t h
    rw [rc_succ] at h
    cases d with
    | false =>
      simp only [Bool.not_false, if_pos] at h
      cases h
      exact ⟨[], flatten_leaf p _, by simp, by rw [flatten_leaf]; simp⟩
    | true =>
      simp only [Bool.not_true, Bool.false_eq_true, if_false] at h
      split at h
      · cases h
      · rename_i children hls
        split at h
        · cases h
          exact ⟨[], flatten_none p true, by simp, by rw [flatten_none]; simp⟩
        · rename_i hcne
          split at h
          · cases h
          · rename_i stats hstats
            split at h
            · cases h
            · rename_i childNodes hmap
              cases h
              obtain ⟨st0, names, hstat0, hdir0, hrd, hchildren⟩ := ls_ok hls
              obtain ⟨hnamesND, hnamesV⟩ := hGS _ _ hrd
              subst hchildren
              have hlen : stats.length = names.length := by
                have h2 := statAll_ok_length hstats
                simpa using h2
              have hforall := resolveAll_names names stats childNodes hlen hmap
              by_cases hcn : childNodes = []
              · subst hcn
                have hfe : TreeNode.flatten
                    (.mk p true (.some (Forest.ofList ([] : List (TreeNode JStr))))) = [p] :=
                  flatten_emptyc p true
                exact ⟨[], hfe, by simp, by rw [hfe]; simp⟩
              · have hQ := forall₂_stack_shape
                  (fun p' d' t' hres => ih S cwd hcwd hGS p' d' t' hres) hforall hnamesV
                have hfl : TreeNode.flatten
                    (TreeNode.mk p true (Children.some (Forest.ofList childNodes))) =
                    p :: (childNodes.map TreeNode.flatten).flatten := by
                  rw [flatten_dir p _ (ofList_ne_nil hcn), toList_ofList]
                set base := stackOf cwd p with hbase
                set blocks := childNodes.map (fun t' => t'.flatten.map (stackOf cwd))
                  with hblocks
                have hQb : List.Forall₂ (fun n bl =>
                    (∀ x ∈ bl, ∃ l', x = base ++ n :: l') ∧ bl.Nodup) names blocks := by
                  rw [hblocks]
                  exact List.forall₂_map_right_iff.mpr hQ
                have hmapflat : ((childNodes.map TreeNode.flatten).flatten).map (stackOf cwd) =
                    blocks.flatten := by
                  rw [hblocks, List.map_flatten, List.map_map]
                  rfl
                refine ⟨(childNodes.map TreeNode.flatten).flatten, hfl, ?_, ?_⟩
                · intro q hq
                  have hx : stackOf cwd q ∈ blocks.flatten := by
                    rw [← hmapflat]
                    exact List.mem_map_of_mem _ hq
                  obtain ⟨m, hm, l', hl⟩ := mem_flatten_blocks hQb _ hx
                  exact ⟨m :: l', hl, by simp⟩
                · rw [hfl, List.map_cons, hmapflat, List.nodup_cons]
                  constructor
                  · intro hmem
                    obtain ⟨m, hm, l', hl⟩ := mem_flatten_blocks hQb _ hmem
                    have h2 := congrArg List.length hl
                    simp at h2
                  · exact nodup_stack_blocks base hQb hnamesND

/-- C1: `flatten` is the pre-order sequence — the node's own path followed
by the flattened children in order, a singleton for a leaf or an
empty/absent children array — and for a resolved tree (over a storage
whose listings are duplicate-free plain names, as a real filesystem
guarantees) it yields exactly one path per node (`N + 1` including the
root) with no duplicates. -/
theorem C1_flatten_preorder_complete :
    (∀ (p : JStr) (c : Children JStr), (TreeNode.mk p false c).flatten = [p]) ∧
    (∀ (p : JStr) (d : Bool),
        (TreeNode.mk p d Children.none).flatten = [p] ∧
        (TreeNode.mk p d (Children.some Forest.nil)).flatten = [p]) ∧
    (∀ (p : JStr) (f : Forest JStr), f ≠ .nil →
        (TreeNode.mk p true (Children.some f)).flatten =
          p :: (f.toList.map TreeNode.flatten).flatten) ∧
    (∀ (S : Storage) (cwd : JStr) (fuel : Nat) (p : JStr) (t : TreeNode JStr),
        isAbs cwd = true → GoodStorage S → FS.tree S cwd fuel p = .ok t →
        t.flatten.length = t.size ∧ t.flatten.Nodup) := by
  refine ⟨flatten_leaf, fun p d => ⟨flatten_none p d, flatten_emptyc p d⟩,
    flatten_dir, ?_⟩
  intro S cwd fuel p t hcwd hGS h
  refine ⟨flatten_length_size t (tree_inv h).2, ?_⟩
  unfold FS.tree at h
  split at h
  · cases h
  · rename_i st hstat
    obtain ⟨rest, hfl, hext, hnd⟩ :=
      resolveNodup fuel S cwd hcwd hGS p st.isDirectory t h
    exact hnd.of_map

/-- C1 witness: the resolved §8 scenario tree has 3 = N + 1 paths (two
entries below the root) and no duplicates. -/
theorem C1_witness :
    scenarioTree.flatten.length = scenarioTree.size ∧ scenarioTree.flatten.Nodup :=
  C1_flatten_preorder_complete.2.2.2 scenarioStorage (str "/w") 2 (str "/a")
    scenarioTree (by decide)
    (by
      intro p l h
      simp only [scenarioStorage] at h
      by_cases h1 : p = str "/a"
      · rw [if_pos h1] at h
        cases h
        exact ⟨by decide, by decide⟩
      · rw [if_neg h1] at h
        by_cases h2 : p = str "/a/y"
        · rw [if_pos h2] at h
          cases h
          exact ⟨by decide, by decide⟩
        · rw [if_neg h2] at h
          cases h)
    (by decide)

theorem regexValidAux_catchall {c : Char} (hc1 : c ≠ '\\') (hc2 : c ≠ '[')
    (hc3 : c ≠ ']') (hc4 : c ≠ '(') (hc5 : c ≠ ')') (t : JStr) (d : Nat) (ic : Bool) :
    regexValidAux (c :: t) d ic = regexValidAux t d ic := by
  rw [regexValidAux.eq_def]
  split <;> simp_all

theorem regexValidAux_safe_append {s : JStr} (hs : regexSafe s = true) :
    ∀ (rest : JStr) (d : Nat) (ic : Bool),
      regexValidAux (s ++ rest) d ic = regexValidAux rest d ic := by
  induction s with
  | nil => intro rest d ic; rfl
  | cons c cs ih =>
    intro rest d ic
    have hc : ¬regexSpecial c := by
      have := (List.all_eq_true.mp hs) c (List.mem_cons_self _ _)
      simpa using this
    have ihs : regexSafe cs = true := by
      refine List.all_eq_true.mpr ?_
      intro x hx
      exact (List.all_eq_true.mp hs) x (List.mem_cons_of_mem _ hx)
    have hc2 : ¬(c = '\\' ∨ c = '^' ∨ c = '$' ∨ c = '.' ∨ c = '|' ∨ c = '?' ∨
        c = '*' ∨ c = '+' ∨ c = '(' ∨ c = ')' ∨ c = '[' ∨ c = ']' ∨
        c = '\x7b' ∨ c = '\x7d') := by
      simpa [regexSpecial, decide_eq_true_eq] using hc
    push_neg at hc2
    rw [List.cons_append,
      regexValidAux_catchall hc2.1 hc2.2.2.2.2.2.2.2.2.2.2.1 hc2.2.2.2.2.2.2.2.2.2.2.2.1
        hc2.2.2.2.2.2.2.2.2.1 hc2.2.2.2.2.2.2.2.2.2.1 _ _ _,
      ih ihs rest d ic]

theorem popPattern_valid {b : JStr} (hb : regexSafe b = true) :
    regexValid (popPattern b) = true := by
  have h1 : regexValid (popPattern b) = regexValidAux (b ++ ['$']) 0 false := rfl
  rw [h1, regexValidAux_safe_append hb]
  rfl

theorem relPattern_valid {iAbs : JStr} (hi : regexSafe iAbs = true) :
    regexValid (relPattern iAbs) = true := by
  have h1 : regexValid (relPattern iAbs) =
      regexValidAux (iAbs ++ str "[/\\\\]") 0 false := rfl
  rw [h1, regexValidAux_safe_append hi]
  rfl

/-- C7 counterexample: a `Path` whose string is a single `'('` makes
`pop()` interpolate the basename into the regex and `new RegExp` throws a
`SyntaxError` (unterminated group) — the operation does not complete
normally. -/
theorem C7_counterexample :
    Path.pop (str "(") = .error (str "SyntaxError: Invalid regular expression") := by
  decide

/-- C7 amended: `pop` and `relativeTo` complete normally whenever the
string interpolated into the regular expression (the basename; the other
path's absolute form) contains no regex metacharacter; with such
characters the `RegExp` constructor can throw. -/
theorem C7_no_throw_when_safe :
    (∀ p : JStr, regexSafe (jsBasename p) = true → ∃ r, Path.pop p = .ok r) ∧
    (∀ cwd p q : JStr, regexSafe (jsResolve cwd q) = true →
      ∃ r, Path.relativeTo cwd p q = .ok r) := by
  constructor
  · intro p hsafe
    refine ⟨popResult p, ?_⟩
    rw [Path.pop, if_pos (popPattern_valid hsafe)]
  · intro cwd p q hsafe
    refine ⟨removeFirstMatch (jsResolve cwd q) (jsResolve cwd p), ?_⟩
    rw [Path.relativeTo, if_pos (relPattern_valid hsafe)]

/-- C7 witness: concrete safe instances. -/
theorem C7_witness :
    (∃ r, Path.pop (str "a/b") = .ok r) ∧
    (∃ r, Path.relativeTo (str "/w") (str "/a/b") (str "/a") = .ok r) :=
  ⟨C7_no_throw_when_safe.1 (str "a/b") (by decide),
   C7_no_throw_when_safe.2 (str "/w") (str "/a/b") (str "/a") (by decide)⟩

theorem removeFirstMatch_at_start {pre s : JStr} (h : matchAt pre s = true) :
    removeFirstMatch pre s = s.drop (pre.length + 1) := by
  cases s with
  | nil =>
    exfalso
    unfold matchAt at h
    rcases Bool.or_eq_true _ _ |>.mp h with h' | h' <;>
      · have := List.isPrefixOf_iff_prefix.mp h'
        have hl := this.length_le
        simp at hl
  | cons c rest =>
    unfold removeFirstMatch
    rw [if_pos h]

theorem removeFirstMatch_no_occurrence {pre : JStr} :
    ∀ s : JStr, (∀ i, matchAt pre (s.drop i) = false) → removeFirstMatch pre s = s := by
  intro s
  induction s with
  | nil => intro _; rfl
  | cons c rest ih =>
    intro h
    unfold removeFirstMatch
    rw [if_neg (by have h0 := h 0; simp at h0; simp [h0])]
    rw [ih (fun i => by have := h (i + 1); simpa using this)]

/-- C4 counterexample: with `p = /x/a/b` and `q = /a`, `q`'s absolute form
is not a prefix of `p`'s, yet `relativeTo` is not a no-op: the unanchored
regex deletes the first occurrence of `/a` + separator in the middle of
the string, returning `/xb`. -/
theorem C4_counterexample :
    ¬ (jsResolve (str "/w") (str "/a")) <+: (jsResolve (str "/w") (str "/x/a/b")) ∧
    Path.relativeTo (str "/w") (str "/x/a/b") (str "/a") = .ok (str "/xb") ∧
    str "/xb" ≠ jsResolve (str "/w") (str "/x/a/b") := by decide

/-- C4 amended: `relativeTo` removes the FIRST occurrence, anywhere in
this path's absolute form, of the other's absolute form followed by one
separator (so when the other's absolute form plus separator is a prefix,
exactly that prefix is stripped); only when there is no such occurrence at
all is the result this path's absolute form unchanged.  (Stated for
other-paths whose absolute form has no regex metacharacter, where the
regex construction is guaranteed not to throw.) -/
theorem C4_relativeTo_first_occurrence (cwd p q : JStr)
    (hsafe : regexSafe (jsResolve cwd q) = true) :
    ((jsResolve cwd q ++ ['/']) <+: jsResolve cwd p →
      Path.relativeTo cwd p q =
        .ok ((jsResolve cwd p).drop ((jsResolve cwd q).length + 1))) ∧
    ((¬ (jsResolve cwd q ++ ['/']) <:+: jsResolve cwd p) →
     (¬ (jsResolve cwd q ++ ['\\']) <:+: jsResolve cwd p) →
      Path.relativeTo cwd p q = .ok (jsResolve cwd p)) := by
  constructor
  · intro hpre
    rw [Path.relativeTo, if_pos (relPattern_valid hsafe)]
    have hm : matchAt (jsResolve cwd q) (jsResolve cwd p) = true := by
      unfold matchAt
      rw [List.isPrefixOf_iff_prefix.mpr hpre]
      simp
    rw [removeFirstMatch_at_start hm]
  · intro hinf1 hinf2
    rw [Path.relativeTo, if_pos (relPattern_valid hsafe)]
    rw [removeFirstMatch_no_occurrence _ ?_]
    intro i
    cases hm : matchAt (jsResolve cwd q) ((jsResolve cwd p).drop i) with
    | false => rfl
    | true =>
      exfalso
      unfold matchAt at hm
      have hdropsuf : (jsResolve cwd p).drop i <:+ jsResolve cwd p :=
        List.drop_suffix i _
      rcases Bool.or_eq_true _ _ |>.mp hm with h' | h'
      · exact hinf1 ((List.isPrefixOf_iff_prefix.mp h').isInfix.trans hdropsuf.isInfix)
      · exact hinf2 ((List.isPrefixOf_iff_prefix.mp h').isInfix.trans hdropsuf.isInfix)

/-- C4 witness: stripping a genuine prefix, `/a/b` relative to `/a` is
`b`. -/
theorem C4_witness :
    Path.relativeTo (str "/w") (str "/a/b") (str "/a") = .ok (str "b") := by
  have h := (C4_relativeTo_first_occurrence (str "/w") (str "/a/b") (str "/a")
    (by decide)).1 (by decide)
  simpa using h

theorem range1_append (s m n : Nat) :
    List.range' s m ++ List.range' (s + m) n = List.range' s (m + n) := by
  have h := List.range'_append s m n 1
  simp only [Nat.one_mul] at h
  rw [h, Nat.add_comm]

theorem heapGet_append {h : Heap} (ext : Heap) {r : Nat} (hr : r < h.length) :
    heapGet (h ++ ext) r = heapGet h r := by
  unfold heapGet
  rw [List.getD_append _ _ _ _ hr]

theorem heapGet_append_exact (h : Heap) (v : JStr) (ext : Heap) :
    heapGet (h ++ v :: ext) h.length = v := by
  unfold heapGet
  rw [List.getD_eq_getElem?_getD, List.getElem?_append_right (Nat.le_refl _)]
  simp

theorem heapGet_set_ne (h : Heap) (r : Nat) (v : JStr) {q : Nat} (hne : r ≠ q) :
    heapGet (h.set r v) q = heapGet h q := by
  unfold heapGet
  rw [List.getD_eq_getElem?_getD, List.getD_eq_getElem?_getD,
    List.getElem?_set_ne hne]

theorem WFR_mono {h : Heap} (ext : Heap) {t : TreeNode Nat} (hw : WFR h t) :
    WFR (h ++ ext) t := by
  intro n hn
  have := hw n hn
  rw [List.length_append]
  omega

theorem WFR_child {h : Heap} {r : Nat} {d : Bool} {c : Children Nat}
    (hw : WFR h (TreeNode.mk r d c)) {t' : TreeNode Nat} (ht : t' ∈ childList c) :
    WFR h t' :=
  fun n hn => hw n (mem_nodes_trans ht hn)

theorem mapPathForest_congr {g g' : Nat → JStr} :
    ∀ fl : Forest Nat, (∀ x ∈ fl.toList, x.mapPath g = x.mapPath g') →
      mapPathForest g fl = mapPathForest g' fl := by
  intro fl
  induction fl using Forest.forestInd with
  | hnil => intro _; rfl
  | hcons t f ih =>
    intro hyp
    show Forest.cons (t.mapPath g) (mapPathForest g f) =
      Forest.cons (t.mapPath g') (mapPathForest g' f)
    rw [hyp t (by simp [Forest.toList]),
      ih (fun x hx => hyp x (by simp [Forest.toList, hx]))]

theorem mapPath_congr {g g' : Nat → JStr} :
    ∀ t : TreeNode Nat, (∀ n ∈ t.nodes, g n.path = g' n.path) →
      t.mapPath g = t.mapPath g' := by
  intro t
  induction t using TreeNode.nodeInd with
  | ind p d c ih =>
    intro hyp
    show TreeNode.mk (g p) d (mapPathChildren g c) =
      TreeNode.mk (g' p) d (mapPathChildren g' c)
    have hp : g p = g' p := by
      have := hyp (TreeNode.mk p d c) (self_mem_nodes _)
      simpa [path_mk] using this
    rw [hp]
    cases c with
    | none => rfl
    | some f =>
      show TreeNode.mk _ d (Children.some (mapPathForest g f)) =
        TreeNode.mk _ d (Children.some (mapPathForest g' f))
      rw [mapPathForest_congr f (fun x hx =>
        ih x (by simpa [childList] using hx)
          (fun n hn => hyp n (mem_nodes_trans (by simpa [childList] using hx) hn)))]

theorem readTree_append {h : Heap} (ext : Heap) {t : TreeNode Nat} (hw : WFR h t) :
    readTree (h ++ ext) t = readTree h t :=
  mapPath_congr t (fun n hn => heapGet_append ext (hw n hn))

theorem readTree_set {h : Heap} {r : Nat} (v : JStr) {t : TreeNode Nat}
    (hr : ∀ n ∈ t.nodes, n.path ≠ r) :
    readTree (heapSet h r v) t = readTree h t :=
  mapPath_congr t (fun n hn => heapGet_set_ne h r v (fun he => hr n hn he.symm))

theorem map_heapGet_range :
    ∀ (V : List JStr) (h : Heap),
      (List.range' h.length V.length).map (heapGet (h ++ V)) = V := by
  intro V
  induction V with
  | nil => intro h; rfl
  | cons v vs ih =>
    intro h
    show List.map (heapGet (h ++ v :: vs)) (List.range' h.length (vs.length + 1)) = v :: vs
    rw [show List.range' h.length (vs.length + 1) =
      h.length :: List.range' (h.length + 1) vs.length from rfl]
    rw [List.map_cons, heapGet_append_exact]
    congr 1
    have hrw : h ++ v :: vs = (h ++ [v]) ++ vs := by simp
    have hlen : h.length + 1 = (h ++ [v]).length := by simp
    rw [hrw, hlen, ih (h ++ [v])]

theorem flattenR_spec :
    ∀ t : TreeNode Nat, ∀ h : Heap, WFR h t →
      flattenR h t = (h ++ (readTree h t).flatten,
        List.range' h.length (readTree h t).flatten.length) := by
  intro t
  induction t using TreeNode.nodeInd with
  | ind r d c ih =>
    intro h hw
    have hforest : ∀ fl : Forest Nat,
        (∀ x ∈ fl.toList, ∀ h1, WFR h1 x →
          flattenR h1 x = (h1 ++ (readTree h1 x).flatten,
            List.range' h1.length (readTree h1 x).flatten.length)) →
        ∀ h0 : Heap, (∀ x ∈ fl.toList, WFR h0 x) →
        flattenRForest h0 fl =
          (h0 ++ flattenForest (mapPathForest (heapGet h0) fl),
            List.range' h0.length
              (flattenForest (mapPathForest (heapGet h0) fl)).length) := by
      intro fl
      induction fl using Forest.forestInd with
      | hnil =>
        intro _ h0 _
        show (h0, ([] : List Nat)) = _
        simp [show mapPathForest (heapGet h0) Forest.nil = Forest.nil from rfl,
          show flattenForest (Forest.nil : Forest JStr) = [] from rfl]
      | hcons t' f'' ihf =>
        intro hmem h0 hwf
        have ht' := hmem t' (by simp [Forest.toList]) h0 (hwf t' (by simp [Forest.toList]))
        have hwf'' : ∀ x ∈ f''.toList, WFR (h0 ++ (readTree h0 t').flatten) x :=
          fun x hx => WFR_mono _ (hwf x (by simp [Forest.toList, hx]))
        have hrec := ihf (fun x hx => hmem x (by simp [Forest.toList, hx]))
          (h0 ++ (readTree h0 t').flatten) hwf''
        have hstab : mapPathForest (heapGet (h0 ++ (readTree h0 t').flatten)) f'' =
            mapPathForest (heapGet h0) f'' :=
          mapPathForest_congr f'' (fun x hx =>
            readTree_append _ (hwf x (by simp [Forest.toList, hx])))
        have hunf : flattenRForest h0 (Forest.cons t' f'') =
            ((flattenRForest (flattenR h0 t').1 f'').1,
             (flattenR h0 t').2 ++ (flattenRForest (flattenR h0 t').1 f'').2) := rfl
        rw [hunf, ht']
        dsimp only
        rw [hrec, hstab]
        dsimp only
        have hV : flattenForest (mapPathForest (heapGet h0) (Forest.cons t' f'')) =
            (readTree h0 t').flatten ++
              flattenForest (mapPathForest (heapGet h0) f'') := rfl
        rw [hV, ← List.append_assoc, List.length_append,
          List.length_append, range1_append]
    cases d with
    | false =>
      show (h ++ [heapGet h r], [h.length]) =
        (h ++ (readTree h (TreeNode.mk r false c)).flatten,
          List.range' h.length (readTree h (TreeNode.mk r false c)).flatten.length)
      rw [show (readTree h (TreeNode.mk r false c)).flatten = [heapGet h r] from
        flatten_leaf _ _]
      rfl
    | true =>
      cases c with
      | none =>
        show (h ++ [heapGet h r], [h.length]) =
          (h ++ (readTree h (TreeNode.mk r true Children.none)).flatten,
            List.range' h.length
              (readTree h (TreeNode.mk r true Children.none)).flatten.length)
        rw [show (readTree h (TreeNode.mk r true Children.none)).flatten =
          [heapGet h r] from flatten_none _ _]
        rfl
      | some f =>
        cases f with
        | nil =>
          show (h ++ [heapGet h r], [h.length]) =
            (h ++ (readTree h (TreeNode.mk r true (Children.some Forest.nil))).flatten,
              List.range' h.length
                (readTree h (TreeNode.mk r true (Children.some Forest.nil))).flatten.length)
          rw [show (readTree h (TreeNode.mk r true (Children.some Forest.nil))).flatten =
            [heapGet h r] from flatten_emptyc _ _]
          rfl
        | cons u f' =>
          have hx : heapGet h r = heapGet (h ++ [heapGet h r]) r := by
            rw [heapGet_append _ (by
              have := hw (TreeNode.mk r true (Children.some (Forest.cons u f')))
                (self_mem_nodes _)
              simpa [path_mk] using this)]
          have hunf : flattenR h (TreeNode.mk r true (Children.some (Forest.cons u f'))) =
              ((flattenRForest (h ++ [heapGet h r]) (Forest.cons u f')).1,
               h.length :: (flattenRForest (h ++ [heapGet h r]) (Forest.cons u f')).2) := rfl
          have hwm : ∀ x ∈ (Forest.cons u f').toList, WFR (h ++ [heapGet h r]) x :=
            fun x hxm => WFR_mono _ (WFR_child hw (by simpa [childList] using hxm))
          have hrec := hforest (Forest.cons u f')
            (fun x hxm h1 hw1 => ih x (by simpa [childList] using hxm) h1 hw1)
            (h ++ [heapGet h r]) hwm
          have hstab : mapPathForest (heapGet (h ++ [heapGet h r])) (Forest.cons u f') =
              mapPathForest (heapGet h) (Forest.cons u f') :=
            mapPathForest_congr _ (fun x hxm =>
              readTree_append _ (WFR_child hw (by simpa [childList] using hxm)))
          rw [hunf, hrec, hstab]
          dsimp only
          have hV : (readTree h (TreeNode.mk r true (Children.some (Forest.cons u f')))).flatten =
              heapGet h r :: flattenForest (mapPathForest (heapGet h) (Forest.cons u f')) := rfl
          rw [hV]
          have hfin1 : (h ++ [heapGet h r]) ++
              flattenForest (mapPathForest (heapGet h) (Forest.cons u f')) =
              h ++ heapGet h r :: flattenForest (mapPathForest (heapGet h) (Forest.cons u f')) := by
            simp
          have hfin2 : h.length :: List.range' ((h ++ [heapGet h r]).length)
              (flattenForest (mapPathForest (heapGet h) (Forest.cons u f'))).length =
              List.range' h.length
                (heapGet h r :: flattenForest (mapPathForest (heapGet h) (Forest.cons u f'))).length := by
            rw [List.length_append, List.length_cons]
            rfl
          rw [hfin1, hfin2]

theorem filesR_spec :
    ∀ t : TreeNode Nat, ∀ h : Heap, WFR h t →
      filesR h t = (h ++ (readTree h t).files,
        List.range' h.length (readTree h t).files.length) := by
  intro t
  induction t using TreeNode.nodeInd with
  | ind r d c ih =>
    intro h hw
    have hforest : ∀ fl : Forest Nat,
        (∀ x ∈ fl.toList, ∀ h1, WFR h1 x →
          filesR h1 x = (h1 ++ (readTree h1 x).files,
            List.range' h1.length (readTree h1 x).files.length)) →
        ∀ h0 : Heap, (∀ x ∈ fl.toList, WFR h0 x) →
        filesRForest h0 fl =
          (h0 ++ filesForest (mapPathForest (heapGet h0) fl),
            List.range' h0.length
              (filesForest (mapPathForest (heapGet h0) fl)).length) := by
      intro fl
      induction fl using Forest.forestInd with
      | hnil =>
        intro _ h0 _
        show (h0, ([] : List Nat)) = _
        simp [show mapPathForest (heapGet h0) Forest.nil = Forest.nil from rfl,
          show filesForest (Forest.nil : Forest JStr) = [] from rfl]
      | hcons t' f'' ihf =>
        intro hmem h0 hwf
        have ht' := hmem t' (by simp [Forest.toList]) h0 (hwf t' (by simp [Forest.toList]))
        have hwf'' : ∀ x ∈ f''.toList, WFR (h0 ++ (readTree h0 t').files) x :=
          fun x hx => WFR_mono _ (hwf x (by simp [Forest.toList, hx]))
        have hrec := ihf (fun x hx => hmem x (by simp [Forest.toList, hx]))
          (h0 ++ (readTree h0 t').files) hwf''
        have hstab : mapPathForest (heapGet (h0 ++ (readTree h0 t').files)) f'' =
            mapPathForest (heapGet h0) f'' :=
          mapPathForest_congr f'' (fun x hx =>
            readTree_append _ (hwf x (by simp [Forest.toList, hx])))
        have hunf : filesRForest h0 (Forest.cons t' f'') =
            ((filesRForest (filesR h0 t').1 f'').1,
             (filesR h0 t').2 ++ (filesRForest (filesR h0 t').1 f'').2) := rfl
        rw [hunf, ht']
        dsimp only
        rw [hrec, hstab]
        dsimp only
        have hV : filesForest (mapPathForest (heapGet h0) (Forest.cons t' f'')) =
            (readTree h0 t').files ++
              filesForest (mapPathForest (heapGet h0) f'') := rfl
        rw [hV, ← List.append_assoc, List.length_append,
          List.length_append, range1_append]
    cases d with
    | false =>
      show (h ++ [heapGet h r], [h.length]) =
        (h ++ (readTree h (TreeNode.mk r false c)).files,
          List.range' h.length (readTree h (TreeNode.mk r false c)).files.length)
      rw [show (readTree h (TreeNode.mk r false c)).files = [heapGet h r] from
        files_leaf _ _]
      rfl
    | true =>
      cases c with
      | none =>
        show (h, ([] : List Nat)) =
          (h ++ (readTree h (TreeNode.mk r true Children.none)).files,
            List.range' h.length
              (readTree h (TreeNode.mk r true Children.none)).files.length)
        rw [show (readTree h (TreeNode.mk r true Children.none)).files =
          ([] : List JStr) from files_none _]
        simp
      | some f =>
        have hunf : filesR h (TreeNode.mk r true (Children.some f)) =
            filesRForest h f := rfl
        have hrec := hforest f
          (fun x hxm h1 hw1 => ih x (by simpa [childList] using hxm) h1 hw1) h
          (fun x hxm => WFR_child hw (by simpa [childList] using hxm))
        rw [hunf, hrec]
        rfl

theorem directoriesR_spec :
    ∀ t : TreeNode Nat, ∀ h : Heap, WFR h t →
      directoriesR h t = (h ++ (readTree h t).directories,
        List.range' h.length (readTree h t).directories.length) := by
  intro t
  induction t using TreeNode.nodeInd with
  | ind r d c ih =>
    intro h hw
    have hforest : ∀ fl : Forest Nat,
        (∀ x ∈ fl.toList, ∀ h1, WFR h1 x →
          directoriesR h1 x = (h1 ++ (readTree h1 x).directories,
            List.range' h1.length (readTree h1 x).directories.length)) →
        ∀ h0 : Heap, (∀ x ∈ fl.toList, WFR h0 x) →
        directoriesRForest h0 fl =
          (h0 ++ directoriesForest (mapPathForest (heapGet h0) fl),
            List.range' h0.length
              (directoriesForest (mapPathForest (heapGet h0) fl)).length) := by
      intro fl
      induction fl using Forest.forestInd with
      | hnil =>
        intro _ h0 _
        show (h0, ([] : List Nat)) = _
        simp [show mapPathForest (heapGet h0) Forest.nil = Forest.nil from rfl,
          show directoriesForest (Forest.nil : Forest JStr) = [] from rfl]
      | hcons t' f'' ihf =>
        intro hmem h0 hwf
        have ht' := hmem t' (by simp [Forest.toList]) h0 (hwf t' (by simp [Forest.toList]))
        have hwf'' : ∀ x ∈ f''.toList, WFR (h0 ++ (readTree h0 t').directories) x :=
          fun x hx => WFR_mono _ (hwf x (by simp [Forest.toList, hx]))
        have hrec := ihf (fun x hx => hmem x (by simp [Forest.toList, hx]))
          (h0 ++ (readTree h0 t').directories) hwf''
        have hstab : mapPathForest (heapGet (h0 ++ (readTree h0 t').directories)) f'' =
            mapPathForest (heapGet h0) f'' :=
          mapPathForest_congr f'' (fun x hx =>
            readTree_append _ (hwf x (by simp [Forest.toList, hx])))
        have hunf : directoriesRForest h0 (Forest.cons t' f'') =
            ((directoriesRForest (directoriesR h0 t').1 f'').1,
             (directoriesR h0 t').2 ++ (directoriesRForest (directoriesR h0 t').1 f'').2) := rfl
        rw [hunf, ht']
        dsimp only
        rw [hrec, hstab]
        dsimp only
        have hV : directoriesForest (mapPathForest (heapGet h0) (Forest.cons t' f'')) =
            (readTree h0 t').directories ++
              directoriesForest (mapPathForest (heapGet h0) f'') := rfl
        rw [hV, ← List.append_assoc, List.length_append,
          List.length_append, range1_append]
    cases d with
    | false =>
      show (h, ([] : List Nat)) =
        (h ++ (readTree h (TreeNode.mk r false c)).directories,
          List.range' h.length (readTree h (TreeNode.mk r false c)).directories.length)
      rw [show (readTree h (TreeNode.mk r false c)).directories = ([] : List JStr) from
        directories_leaf _ _]
      simp
    | true =>
      cases c with
      | none =>
        show (h, ([] : List Nat)) =
          (h ++ (readTree h (TreeNode.mk r true Children.none)).directories,
            List.range' h.length
              (readTree h (TreeNode.mk r true Children.none)).directories.length)
        rw [show (readTree h (TreeNode.mk r true Children.none)).directories =
          ([] : List JStr) from directories_none _ _]
        simp
      | some f =>
        cases f with
        | nil =>
          show (h, ([] : List Nat)) =
            (h ++ (readTree h (TreeNode.mk r true (Children.some Forest.nil))).directories,
              List.range' h.length
                (readTree h (TreeNode.mk r true (Children.some Forest.nil))).directories.length)
          rw [show (readTree h (TreeNode.mk r true (Children.some Forest.nil))).directories =
            ([] : List JStr) from directories_emptyc _ _]
          simp
        | cons u f' =>
          have hunf : directoriesR h (TreeNode.mk r true (Children.some (Forest.cons u f'))) =
              ((directoriesRForest (h ++ [heapGet h r]) (Forest.cons u f')).1,
               h.length :: (directoriesRForest (h ++ [heapGet h r]) (Forest.cons u f')).2) := rfl
          have hwm : ∀ x ∈ (Forest.cons u f').toList, WFR (h ++ [heapGet h r]) x :=
            fun x hxm => WFR_mono _ (WFR_child hw (by simpa [childList] using hxm))
          have hrec := hforest (Forest.cons u f')
            (fun x hxm h1 hw1 => ih x (by simpa [childList] using hxm) h1 hw1)
            (h ++ [heapGet h r]) hwm
          have hstab : mapPathForest (heapGet (h ++ [heapGet h r])) (Forest.cons u f') =
              mapPathForest (heapGet h) (Forest.cons u f') :=
            mapPathForest_congr _ (fun x hxm =>
              readTree_append _ (WFR_child hw (by simpa [childList] using hxm)))
          rw [hunf, hrec, hstab]
          dsimp only
          have hV : (readTree h (TreeNode.mk r true (Children.some (Forest.cons u f')))).directories =
              heapGet h r :: directoriesForest (mapPathForest (heapGet h) (Forest.cons u f')) := rfl
          rw [hV]
          have hfin1 : (h ++ [heapGet h r]) ++
              directoriesForest (mapPathForest (heapGet h) (Forest.cons u f')) =
              h ++ heapGet h r :: directoriesForest (mapPathForest (heapGet h) (Forest.cons u f')) := by
            simp
          have hfin2 : h.length :: List.range' ((h ++ [heapGet h r]).length)
              (directoriesForest (mapPathForest (heapGet h) (Forest.cons u f'))).length =
              List.range' h.length
                (heapGet h r :: directoriesForest (mapPathForest (heapGet h) (Forest.cons u f'))).length := by
            rw [List.length_append, List.length_cons]
            rfl
          rw [hfin1, hfin2]

/-- C10: every path reference returned by the heap-threaded queries is a
fresh clone — its content is string-equal to the corresponding node's path
at return time — and mutating any returned reference through an in-place
composition operation leaves every path stored in the tree unchanged. -/
theorem C10_returned_paths_are_fresh_clones
    (h : Heap) (t : TreeNode Nat) (hw : WFR h t) :
    ((flattenR h t).2.map (heapGet (flattenR h t).1) = (readTree h t).flatten ∧
      ∀ r ∈ (flattenR h t).2, ∀ g : JStr → JStr,
        readTree (mutateR (flattenR h t).1 r g) t = readTree h t) ∧
    ((filesR h t).2.map (heapGet (filesR h t).1) = (readTree h t).files ∧
      ∀ r ∈ (filesR h t).2, ∀ g : JStr → JStr,
        readTree (mutateR (filesR h t).1 r g) t = readTree h t) ∧
    ((directoriesR h t).2.map (heapGet (directoriesR h t).1) = (readTree h t).directories ∧
      ∀ r ∈ (directoriesR h t).2, ∀ g : JStr → JStr,
        readTree (mutateR (directoriesR h t).1 r g) t = readTree h t) := by
  have hpaths : ∀ n ∈ t.nodes, n.path < h.length := hw
  refine ⟨?_, ?_, ?_⟩
  · rw [flattenR_spec t h hw]
    refine ⟨map_heapGet_range _ h, ?_⟩
    intro r hr g
    have hle : h.length ≤ r := (List.mem_range'_1.mp hr).1
    rw [show mutateR (h ++ (readTree h t).flatten) r g =
      heapSet (h ++ (readTree h t).flatten) r
        (g (heapGet (h ++ (readTree h t).flatten) r)) from rfl]
    rw [readTree_set _ (fun n hn he => by have := hpaths n hn; omega),
      readTree_append _ hw]
  · rw [filesR_spec t h hw]
    refine ⟨map_heapGet_range _ h, ?_⟩
    intro r hr g
    have hle : h.length ≤ r := (List.mem_range'_1.mp hr).1
    rw [show mutateR (h ++ (readTree h t).files) r g =
      heapSet (h ++ (readTree h t).files) r
        (g (heapGet (h ++ (readTree h t).files) r)) from rfl]
    rw [readTree_set _ (fun n hn he => by have := hpaths n hn; omega),
      readTree_append _ hw]
  · rw [directoriesR_spec t h hw]
    refine ⟨map_heapGet_range _ h, ?_⟩
    intro r hr g
    have hle : h.length ≤ r := (List.mem_range'_1.mp hr).1
    rw [show mutateR (h ++ (readTree h t).directories) r g =
      heapSet (h ++ (readTree h t).directories) r
        (g (heapGet (h ++ (readTree h t).directories) r)) from rfl]
    rw [readTree_set _ (fun n hn he => by have := hpaths n hn; omega),
      readTree_append _ hw]

/-- C10 witness: in the concrete two-cell heap, the references returned by
`flatten` read back exactly the tree's path strings. -/
theorem C10_witness :
    (flattenR demoHeap demoTreeR).2.map (heapGet (flattenR demoHeap demoTreeR).1) =
      (readTree demoHeap demoTreeR).flatten :=
  (C10_returned_paths_are_fresh_clones demoHeap demoTreeR (by decide)).1.1
